import Mathlib

/-!
Verification of the decoding engine in `decoding.py` (autoregressive token
search: greedy and beam-search decoding, logit-masking rules, candidate
ranking, and the decoding-task orchestration) against its specification.

Shallow-embedding conventions used throughout this file:

* Token ids are natural numbers; a token sequence is a `List ℕ`; a 2-D token
  tensor is a `List (List ℕ)` of its rows (rectangular in every actual call).
* Floating-point log-probability scores are embedded as `WithBot ℤ` in the
  beam-search decoders — `⊥` plays the role of `-inf`, and `⊥ + x = ⊥`
  mirrors IEEE `-inf + x = -inf` — as plain `ℤ` in the greedy decoder (whose
  update multiplies a score by a 0/1 indicator, which is exact for finite
  scores), and as `ℝ` in the sequence ranker, whose Google-NMT length
  penalty takes a real power.  Only the ordered-additive structure of float
  scores is used by the decoders, so these choices are faithful to every
  branch the code can take on non-NaN inputs.
* `F.log_softmax` is an external numeric routine; decoder update functions
  take the resulting per-row log-probability vectors as inputs (the source
  computes them from the raw logits and uses them only through `topk`,
  addition and comparisons).
* Python dicts are insertion-ordered association lists; Python `sorted` is a
  stable sort, embedded as a structurally recursive stable insertion sort.
-/

/-- Python `round` on a rational: round half to even (banker's rounding),
computed on the numerator/denominator so that it evaluates by `decide`. -/
def pyRound (q : ℚ) : ℤ :=
  let f := Int.fdiv q.num q.den
  let rnum := q.num - f * q.den
  if 2 * rnum < (q.den : ℤ) then f
  else if (q.den : ℤ) < 2 * rnum then f + 1
  else if f % 2 = 0 then f else f + 1

/-- Python list slicing `l[i:]` with a possibly negative start index:
a negative `i` counts from the end (clamped at 0), `l[-0:]` is all of `l`. -/
def pySliceFrom {α : Type} (l : List α) (i : ℤ) : List α :=
  if i < 0 then l.drop (l.length + i).toNat else l.drop i.toNat

/-- In-place assignment `l[n] = v` on a list (out-of-range indices are
unchanged; the source only assigns in range). -/
def listSet {α : Type} : List α → ℕ → α → List α
  | [], _, _ => []
  | _ :: xs, 0, v => v :: xs
  | x :: xs, n + 1, v => x :: listSet xs n v

/-- Stable insertion step: `x` goes in front of the first element `y` with
`le x y`.  Elements inserted earlier (= earlier in the input) stay first on
ties, giving Python's stable `sorted` semantics. -/
def insertBy {α : Type} (le : α → α → Bool) (x : α) : List α → List α
  | [] => [x]
  | y :: ys => if le x y then x :: y :: ys else y :: insertBy le x ys

/-- Stable sort by `le` (embedding of Python's stable `sorted`). -/
def sortBy {α : Type} (le : α → α → Bool) : List α → List α
  | [] => []
  | x :: xs => insertBy le x (sortBy le xs)

/-- Python dict assignment `d[k] = v` on an insertion-ordered association
list: an existing key keeps its position and gets the new value, a new key is
appended at the end. -/
def dictInsert {β : Type} (d : List (List ℕ × β)) (k : List ℕ) (v : β) :
    List (List ℕ × β) :=
  if d.any (fun p => decide (p.1 = k)) then
    d.map (fun p => if p.1 = k then (k, v) else p)
  else d ++ [(k, v)]

theorem length_insertBy {α : Type} (le : α → α → Bool) (x : α) (l : List α) :
    (insertBy le x l).length = l.length + 1 := by
  induction l with
  | nil => rfl
  | cons y ys ih =>
      simp only [insertBy]
      split
      · simp
      · simp [ih]

theorem length_sortBy {α : Type} (le : α → α → Bool) (l : List α) :
    (sortBy le l).length = l.length := by
  induction l with
  | nil => rfl
  | cons x xs ih => simp [sortBy, length_insertBy, ih]

theorem length_dictInsert {β : Type} (d : List (List ℕ × β)) (k : List ℕ) (v : β) :
    (dictInsert d k v).length ≤ d.length + 1 := by
  unfold dictInsert
  split
  · simp
  · simp

theorem mem_of_mem_zipWith {α β γ : Type} {f : α → β → γ} :
    ∀ {l₁ : List α} {l₂ : List β} {c : γ}, c ∈ List.zipWith f l₁ l₂ →
      ∃ a ∈ l₁, ∃ b ∈ l₂, c = f a b
  | a :: as, b :: bs, c, h => by
      rcases List.mem_cons.1 h with h | h
      · exact ⟨a, List.mem_cons_self _ _, b, List.mem_cons_self _ _, h⟩
      · rcases mem_of_mem_zipWith h with ⟨a', ha, b', hb, hc⟩
        exact ⟨a', List.mem_cons_of_mem _ ha, b', List.mem_cons_of_mem _ hb, hc⟩

theorem pySliceFrom_of_nonneg {α : Type} (l : List α) (i : ℤ) (h : 0 ≤ i) :
    pySliceFrom l i = l.drop i.toNat := by
  simp [pySliceFrom, not_lt.2 h]

theorem pySliceFrom_zero {α : Type} (l : List α) : pySliceFrom l 0 = l := by
  simp [pySliceFrom_of_nonneg l 0 le_rfl]

theorem pySliceFrom_neg {α : Type} (l : List α) (m : ℤ) (hm : 0 < m) :
    pySliceFrom l (-m) = l.drop (l.length - m.toNat) ∧
      (pySliceFrom l (-m)).length ≤ m.toNat := by
  have hlt : -m < 0 := by omega
  have harith : ((l.length : ℤ) + -m).toNat = l.length - m.toNat := by omega
  constructor
  · simp [pySliceFrom, hlt, harith]
  · simp only [pySliceFrom, if_pos hlt, harith, List.length_drop]
    omega

namespace DecodingTask

/-- Embeds the `sample_len` resolution in `DecodingTask.__init__`:
`options.sample_len or model.dims.n_text_ctx // 2` (Python `or`, so an
explicit `0` also falls back to the default). -/
def resolveSampleLen (sampleLenOpt : Option ℕ) (nCtx : ℕ) : ℕ :=
  match sampleLenOpt with
  | some n => if n = 0 then nCtx / 2 else n
  | none => nCtx / 2

/-- Embeds `DecodingTask._get_initial_tokens`.  Prompt and prefix arrive as
token lists (the string branches go through the external tokenizer's
`encode`); Python truthiness makes empty prompt/prefix values behave as
absent, so they are `Option`s here.  `self.sample_len` is always set (it is
defaulted in `__init__`), so the `if self.sample_len is not None` guard is
always taken and the slice `prefix_tokens[-max_prefix_len:]` is applied
unconditionally. -/
def getInitialTokens (sotSequence : List ℕ) (sotPrev : ℕ) (nCtx sampleLen : ℕ)
    (prefixTokens promptTokens : Option (List ℕ)) : List ℕ :=
  let tokens := sotSequence
  let tokens := match prefixTokens with
    | some pfx =>
        let maxPrefixLen : ℤ := (nCtx / 2 : ℕ) - (sampleLen : ℤ)
        tokens ++ pySliceFrom pfx (-maxPrefixLen)
    | none => tokens
  match promptTokens with
  | some pmt => sotPrev :: (pySliceFrom pmt (-((nCtx / 2 : ℕ) - 1 : ℤ)) ++ tokens)
  | none => tokens

end DecodingTask

/-- C4 (amended): with a prefix configured and no prompt, the initial token
context is the start sequence followed by a slice of the prefix.  When
`n_ctx // 2 - sample_len > 0` the slice keeps at most that many prefix
tokens, the most recent ones.  But when `sample_len ≥ n_ctx // 2` — in
particular at the default `sample_len = n_ctx // 2`, where the bound is 0 —
the Python slice `prefix_tokens[-max_prefix_len:]` keeps the entire prefix
except its first `sample_len - n_ctx // 2` tokens, not at most
`n_ctx // 2 - sample_len` tokens as the claim states. -/
theorem claim_C4_initial_prefix_bound (sotSequence : List ℕ) (sotPrev : ℕ)
    (nCtx sampleLen : ℕ) (pfx : List ℕ) :
    (0 < ((nCtx / 2 : ℕ) : ℤ) - (sampleLen : ℤ) →
      DecodingTask.getInitialTokens sotSequence sotPrev nCtx sampleLen (some pfx) none =
        sotSequence ++ pfx.drop (pfx.length - (((nCtx / 2 : ℕ) : ℤ) - (sampleLen : ℤ)).toNat) ∧
      (DecodingTask.getInitialTokens sotSequence sotPrev nCtx sampleLen (some pfx) none).length
        ≤ sotSequence.length + (((nCtx / 2 : ℕ) : ℤ) - (sampleLen : ℤ)).toNat) ∧
    (((nCtx / 2 : ℕ) : ℤ) - (sampleLen : ℤ) = 0 →
      DecodingTask.getInitialTokens sotSequence sotPrev nCtx sampleLen (some pfx) none =
        sotSequence ++ pfx) ∧
    (((nCtx / 2 : ℕ) : ℤ) - (sampleLen : ℤ) < 0 →
      DecodingTask.getInitialTokens sotSequence sotPrev nCtx sampleLen (some pfx) none =
        sotSequence ++ pfx.drop ((sampleLen : ℤ) - ((nCtx / 2 : ℕ) : ℤ)).toNat) := by
  refine ⟨fun hpos => ?_, fun hzero => ?_, fun hneg => ?_⟩
  · obtain ⟨heq, hlen⟩ := pySliceFrom_neg pfx _ hpos
    constructor
    · simp only [DecodingTask.getInitialTokens, heq]
    · simp only [DecodingTask.getInitialTokens, List.length_append]
      omega
  · simp only [DecodingTask.getInitialTokens, hzero, neg_zero, pySliceFrom_zero]
  · have h0 : (0 : ℤ) ≤ -(((nCtx / 2 : ℕ) : ℤ) - (sampleLen : ℤ)) := by omega
    have hslice := pySliceFrom_of_nonneg pfx (-(((nCtx / 2 : ℕ) : ℤ) - (sampleLen : ℤ))) h0
    have htn : (-(((nCtx / 2 : ℕ) : ℤ) - (sampleLen : ℤ))).toNat =
        ((sampleLen : ℤ) - ((nCtx / 2 : ℕ) : ℤ)).toNat := by omega
    simp only [DecodingTask.getInitialTokens, hslice, htn]

/-- Witness for C4: `n_ctx = 10`, `sample_len = 3`, prefix `[1,2,3]` — the
bound `10/2 - 3 = 2` is positive and only the last two prefix tokens are
kept. -/
theorem claim_C4_initial_prefix_bound_witness :
    (0 < (((10 / 2 : ℕ) : ℤ)) - ((3 : ℕ) : ℤ) ∧
      DecodingTask.getInitialTokens [50258] 50361 10 3 (some [1, 2, 3]) none =
        [50258] ++ [1, 2, 3].drop ([1, 2, 3].length - ((((10 / 2 : ℕ) : ℤ)) - ((3 : ℕ) : ℤ)).toNat)) := by
  refine ⟨by decide, ?_⟩
  exact (claim_C4_initial_prefix_bound [50258] 50361 10 3 [1, 2, 3]).1 (by decide) |>.1

/-- Counterexample for C4 as stated: with the default sampling budget
`sample_len = n_ctx // 2` (here `resolveSampleLen none 8 = 4`), the claimed
bound on kept prefix tokens is `8 // 2 - 4 = 0`, yet all three prefix tokens
are kept: `prefix_tokens[-0:]` is the whole prefix in Python. -/
theorem claim_C4_counterexample :
    DecodingTask.resolveSampleLen none 8 = 4 ∧
    (((8 / 2 : ℕ) : ℤ)) - ((DecodingTask.resolveSampleLen none 8 : ℕ) : ℤ) = 0 ∧
    DecodingTask.getInitialTokens [50258] 50361 8 (DecodingTask.resolveSampleLen none 8)
      (some [1, 2, 3]) none = [50258, 1, 2, 3] := by
  refine ⟨rfl, by decide, ?_⟩
  decide

namespace PyTorchInference

/-- Embeds `PyTorchInference.rearrange_kv_cache`.  The key/value cache is the
list of its cached tensors (one per attention key/value module), each tensor
a list of batch rows; indexing a tensor by the list `source_indices` gathers
rows, so new row `i` is old row `source_indices[i]`; `.detach()` has no
value-level effect. -/
def rearrange_kv_cache (kvCache : List (List (List ℤ))) (sourceIndices : List ℕ) :
    List (List (List ℤ)) :=
  if sourceIndices = List.range sourceIndices.length then kvCache
  else kvCache.map (fun t => sourceIndices.map (fun i => t.getD i []))

end PyTorchInference

theorem rearrange_gather_entry :
    ∀ (kv : List (List (List ℤ))) (src : List ℕ) (m i : ℕ), i < src.length →
      ((kv.map (fun t => src.map (fun j => t.getD j []))).getD m []).getD i [] =
        (kv.getD m []).getD (src.getD i 0) []
  | [], src, m, i, hi => by simp
  | t :: rest, src, 0, i, hi => by
      simp only [List.map_cons, List.getD_cons_zero]
      rw [List.getD_eq_getElem _ _ (by simpa using hi), List.getElem_map,
        List.getD_eq_getElem src 0 hi]
  | t :: rest, src, m + 1, i, hi => by
      simp only [List.map_cons, List.getD_cons_succ]
      exact rearrange_gather_entry rest src m i hi

/-- C8: rearranging the key/value cache with the identity permutation leaves
the cache entirely unchanged (the guard skips the gather), and with any other
index list every cached tensor's row `i` afterwards is its row
`source_indices[i]` beforehand, for every `i` below the index-list length
(tensors are read through `getD` with the empty row as default, so the
statement also covers module indices beyond the cache). -/
theorem claim_C8_rearrange_cache (kvCache : List (List (List ℤ))) (src : List ℕ) :
    (src = List.range src.length →
      PyTorchInference.rearrange_kv_cache kvCache src = kvCache) ∧
    (src ≠ List.range src.length →
      (PyTorchInference.rearrange_kv_cache kvCache src).length = kvCache.length ∧
      ∀ m i, i < src.length →
        ((PyTorchInference.rearrange_kv_cache kvCache src).getD m []).getD i [] =
          (kvCache.getD m []).getD (src.getD i 0) []) := by
  constructor
  · intro h
    simp only [PyTorchInference.rearrange_kv_cache, if_pos h]
  · intro h
    simp only [PyTorchInference.rearrange_kv_cache, if_neg h]
    exact ⟨by simp, fun m i hi => rearrange_gather_entry kvCache src m i hi⟩

/-- Witness for C8 at a concrete non-identity permutation `[1, 0]` on a
two-row cache. -/
theorem claim_C8_rearrange_cache_witness :
    [1, 0] ≠ List.range 2 ∧
    ((PyTorchInference.rearrange_kv_cache [[[10], [20]]] [1, 0]).getD 0 []).getD 0 [] =
      (([[[10], [20]]].getD 0 []) : List (List ℤ)).getD ([1, 0].getD 0 0) [] := by
  refine ⟨by decide, ?_⟩
  exact ((claim_C8_rearrange_cache [[[10], [20]]] [1, 0]).2 (by decide)).2 0 0 (by decide)

/-- Embeds `np.argmax` on a vector of floats: the first index attaining the
maximum (numpy documents first-occurrence tie-breaking).  `ℝ` has no
computable order, hence noncomputable; concrete instances evaluate with
`norm_num`. -/
noncomputable def npArgmax : List ℝ → ℕ
  | [] => 0
  | x :: xs =>
    let k := npArgmax xs
    if xs.getD k x ≤ x then 0 else k + 1

theorem npArgmax_spec : ∀ (l : List ℝ), l ≠ [] →
    npArgmax l < l.length ∧
    (∀ j, j < l.length → l.getD j 0 ≤ l.getD (npArgmax l) 0) ∧
    (∀ j, j < npArgmax l → l.getD j 0 < l.getD (npArgmax l) 0) := by
  intro l
  induction l with
  | nil => intro h; exact absurd rfl h
  | cons x xs ih =>
    intro _
    by_cases hxs : xs = []
    · subst hxs
      refine ⟨by simp [npArgmax], fun j hj => ?_, fun j hj => ?_⟩
      · have hj0 : j = 0 := Nat.lt_one_iff.1 (by simpa using hj)
        subst hj0
        simp [npArgmax]
      · simp [npArgmax] at hj
    · obtain ⟨hk, hmax, hfirst⟩ := ih hxs
      have hget : xs.getD (npArgmax xs) x = xs.getD (npArgmax xs) 0 := by
        rw [List.getD_eq_getElem _ _ hk, List.getD_eq_getElem _ _ hk]
      by_cases hcmp : xs.getD (npArgmax xs) 0 ≤ x
      · have hres : npArgmax (x :: xs) = 0 := by
          simp only [npArgmax, hget]
          exact if_pos hcmp
        refine ⟨by simp [hres], fun j hj => ?_, fun j hj => by omega⟩
        rw [hres]
        match j with
        | 0 => simp
        | j + 1 =>
            simp only [List.getD_cons_succ, List.getD_cons_zero]
            exact le_trans (hmax j (by simpa using hj)) hcmp
      · have hres : npArgmax (x :: xs) = npArgmax xs + 1 := by
          simp only [npArgmax, hget]
          exact if_neg (by simpa using hcmp)
        have hlt : x < xs.getD (npArgmax xs) 0 := lt_of_not_le hcmp
        refine ⟨by simpa [hres] using hk, fun j hj => ?_, fun j hj => ?_⟩
        · rw [hres]
          match j with
          | 0 => simpa using hlt.le
          | j + 1 =>
              simp only [List.getD_cons_succ]
              exact hmax j (by simpa using hj)
        · rw [hres]
          rw [hres] at hj
          match j with
          | 0 => simpa using hlt
          | j + 1 =>
              simp only [List.getD_cons_succ]
              exact hfirst j (by omega)

namespace MaximumLikelihoodRanker

/-- Length penalty from the inner `scores` function of
`MaximumLikelihoodRanker.rank`: the raw candidate length when no
`length_penalty` is configured, else the Google NMT penalty
`((5 + length) / 6) ** length_penalty` (a real power). -/
noncomputable def penaltyOf (lengthPenalty : Option ℝ) (length : ℕ) : ℝ :=
  match lengthPenalty with
  | none => length
  | some p => ((5 + (length : ℝ)) / 6) ^ p

/-- The per-candidate score list (`result` in the source's `scores`):
cumulative log-probability divided by the penalty, over zipped
logprob/length pairs. -/
noncomputable def scores (lengthPenalty : Option ℝ) (logprobs : List ℝ)
    (lengths : List ℕ) : List ℝ :=
  List.zipWith (fun logprob len => logprob / penaltyOf lengthPenalty len) logprobs lengths

/-- Embeds `MaximumLikelihoodRanker.rank`: per audio group, the first index
with maximal score. -/
noncomputable def rank (lengthPenalty : Option ℝ) (tokens : List (List (List ℕ)))
    (sumLogprobs : List (List ℝ)) : List ℕ :=
  let lengths := tokens.map (fun s => s.map List.length)
  List.zipWith (fun p l => npArgmax (scores lengthPenalty p l)) sumLogprobs lengths

end MaximumLikelihoodRanker

/-- Candidate score exactly as the specification words it: `logprob / length`
when `length_penalty` is unset, `logprob / ((5 + length) / 6) ^ p` when
`length_penalty = p`. -/
noncomputable def specCandidateScore (lengthPenalty : Option ℝ) (logprob : ℝ)
    (length : ℕ) : ℝ :=
  match lengthPenalty with
  | none => logprob / length
  | some p => logprob / (((5 + (length : ℝ)) / 6) ^ p)

theorem specCandidateScore_eq (lengthPenalty : Option ℝ) (logprob : ℝ) (length : ℕ) :
    specCandidateScore lengthPenalty logprob length =
      logprob / MaximumLikelihoodRanker.penaltyOf lengthPenalty length := by
  cases lengthPenalty <;> rfl

/-- C2: for any per-audio candidate lists and cumulative log-probabilities
(the audio's score row nonempty and as long as its candidate list), the
ranker's selected index for that audio attains the maximum of the
specification's scores — `logprob / length` when `length_penalty` is unset,
`logprob / ((5+length)/6) ^ p` when `length_penalty = p` — and every earlier
index scores strictly lower, i.e. ties break to the first occurrence. -/
theorem claim_C2_ranker_argmax (lp : Option ℝ) (tokens : List (List (List ℕ)))
    (sumLogprobs : List (List ℝ)) (a : ℕ)
    (ha1 : a < tokens.length) (ha2 : a < sumLogprobs.length)
    (hlen : (tokens.getD a []).length = (sumLogprobs.getD a []).length)
    (hne : sumLogprobs.getD a [] ≠ []) :
    a < (MaximumLikelihoodRanker.rank lp tokens sumLogprobs).length ∧
    (MaximumLikelihoodRanker.rank lp tokens sumLogprobs).getD a 0 <
      (sumLogprobs.getD a []).length ∧
    (∀ j, j < (sumLogprobs.getD a []).length →
      specCandidateScore lp ((sumLogprobs.getD a []).getD j 0)
          ((tokens.getD a []).getD j []).length ≤
        specCandidateScore lp
          ((sumLogprobs.getD a []).getD
            ((MaximumLikelihoodRanker.rank lp tokens sumLogprobs).getD a 0) 0)
          ((tokens.getD a []).getD
            ((MaximumLikelihoodRanker.rank lp tokens sumLogprobs).getD a 0) []).length) ∧
    (∀ j, j < (MaximumLikelihoodRanker.rank lp tokens sumLogprobs).getD a 0 →
      specCandidateScore lp ((sumLogprobs.getD a []).getD j 0)
          ((tokens.getD a []).getD j []).length <
        specCandidateScore lp
          ((sumLogprobs.getD a []).getD
            ((MaximumLikelihoodRanker.rank lp tokens sumLogprobs).getD a 0) 0)
          ((tokens.getD a []).getD
            ((MaximumLikelihoodRanker.rank lp tokens sumLogprobs).getD a 0) []).length) := by
  have hP : sumLogprobs.getD a [] = sumLogprobs[a] := List.getD_eq_getElem _ _ ha2
  have hM : tokens.getD a [] = tokens[a] := List.getD_eq_getElem _ _ ha1
  have hranklen : (MaximumLikelihoodRanker.rank lp tokens sumLogprobs).length =
      min sumLogprobs.length tokens.length := by
    simp [MaximumLikelihoodRanker.rank]
  have har : a < (MaximumLikelihoodRanker.rank lp tokens sumLogprobs).length := by
    omega
  -- the selected index is the first argmax of the code's score list
  have hsel : (MaximumLikelihoodRanker.rank lp tokens sumLogprobs).getD a 0 =
      npArgmax (MaximumLikelihoodRanker.scores lp sumLogprobs[a]
        (tokens[a].map List.length)) := by
    rw [List.getD_eq_getElem _ _ har]
    simp [MaximumLikelihoodRanker.rank, List.getElem_zipWith]
  set L : List ℕ := tokens[a].map List.length with hL
  set P : List ℝ := sumLogprobs[a] with hPdef
  have hLP : L.length = P.length := by
    simp only [hL, List.length_map]
    rw [hM, hP] at hlen
    exact hlen
  have hsl : (MaximumLikelihoodRanker.scores lp P L).length = P.length := by
    simp only [MaximumLikelihoodRanker.scores, List.length_zipWith]
    omega
  have hne' : MaximumLikelihoodRanker.scores lp P L ≠ [] := by
    intro hcontra
    apply hne
    rw [hP]
    have := congrArg List.length hcontra
    rw [hsl] at this
    exact List.length_eq_zero.1 this
  obtain ⟨hk, hmax, hfirst⟩ := npArgmax_spec _ hne'
  rw [hsl] at hk
  have hscore : ∀ j, j < P.length →
      (MaximumLikelihoodRanker.scores lp P L).getD j 0 =
        specCandidateScore lp (P.getD j 0) ((tokens[a].getD j []).length) := by
    intro j hj
    have hjL : j < L.length := by omega
    have hjs : j < (MaximumLikelihoodRanker.scores lp P L).length := by omega
    have hjM : j < tokens[a].length := by simpa [hL] using hjL
    rw [List.getD_eq_getElem _ _ hjs, List.getD_eq_getElem _ _ hj,
      List.getD_eq_getElem _ _ hjM]
    simp only [MaximumLikelihoodRanker.scores, List.getElem_zipWith]
    rw [specCandidateScore_eq]
    congr 1
    simp [hL]
  refine ⟨har, ?_, fun j hj => ?_, fun j hj => ?_⟩
  · rw [hsel, hP]
    exact hk
  · rw [hP, hM] at *
    rw [hsel] at *
    rw [← hscore _ (by omega), ← hscore _ hk]
    exact hmax _ (by omega)
  · rw [hP, hM] at *
    rw [hsel] at *
    rw [← hscore _ (by omega), ← hscore _ hk]
    exact hfirst _ hj

/-- Witness for C2 at a concrete input: one audio group, candidates of
lengths 1 and 2 with log-probabilities -1 and -4, no length penalty. -/
theorem claim_C2_ranker_argmax_witness :
    0 < (MaximumLikelihoodRanker.rank none [[[10], [20, 30]]] [[(-1 : ℝ), -4]]).length :=
  (claim_C2_ranker_argmax none [[[10], [20, 30]]] [[(-1 : ℝ), -4]] 0
    (by decide) (by decide) (by simp) (by simp)).1

namespace DecodingTask

/-- Embeds the language-detection rescoring block that `DecodingTask.run`
applies between `finalize` and the ranker: it iterates over the candidates of
the first audio input (`tokens[0]`), runs `langdetect.detect` on each decoded
text (an exception makes the prediction `'unk'`), and subtracts `7.0` from
`sum_logprobs[0][idx]` whenever the prediction is not `'en'`; other audio
inputs are untouched.  `detect` returns `none` where the library would raise,
and `decodeText` is the external tokenizer's `decode`. -/
noncomputable def adjustFirstAudioScores (detect : String → Option String)
    (decodeText : List ℕ → String) (tokens : List (List (List ℕ)))
    (sumLogprobs : List (List ℝ)) : List (List ℝ) :=
  match tokens, sumLogprobs with
  | t0 :: _, s0 :: srest =>
      (List.zipWith
        (fun te s =>
          if (detect (decodeText te)).getD "unk" ≠ "en" then s - 7 else s)
        t0 s0) :: srest
  | _, _ => sumLogprobs

end DecodingTask

/-- Concrete stand-in for the external language detector, for witnesses:
text `"A"` is detected as French, anything else as English. -/
def detectStub : String → Option String := fun s => if s = "A" then some "fr" else some "en"

/-- Concrete stand-in for the external tokenizer's `decode`, for witnesses:
the candidate `[10]` decodes to text `"A"`, anything else to `"B"`. -/
def decodeStub : List ℕ → String := fun t => if t = [10] then "A" else "B"

/-- C9: after finalization and before ranking, every candidate of the first
audio whose decoded text is not detected as English (or whose detection
raises, yielding `'unk'`) has `7.0` subtracted from its cumulative
log-probability; candidates of every other audio keep their scores; and the
ranked winner for the first audio can therefore differ from the argmax of
the unmodified length-normalized scores, as the concrete instance in the
last conjunct shows. -/
theorem claim_C9_first_audio_rescoring (detect : String → Option String)
    (decodeText : List ℕ → String) (t0 : List (List ℕ)) (ts : List (List (List ℕ)))
    (s0 : List ℝ) (ss : List (List ℝ)) :
    (DecodingTask.adjustFirstAudioScores detect decodeText (t0 :: ts) (s0 :: ss) =
      (List.zipWith
        (fun te s =>
          if (detect (decodeText te)).getD "unk" ≠ "en" then s - 7 else s)
        t0 s0) :: ss) ∧
    (∀ i, i < t0.length → i < s0.length →
      ((DecodingTask.adjustFirstAudioScores detect decodeText (t0 :: ts)
          (s0 :: ss)).getD 0 []).getD i 0 =
        (if (detect (decodeText (t0.getD i []))).getD "unk" ≠ "en"
          then s0.getD i 0 - 7 else s0.getD i 0)) ∧
    (∀ a, 1 ≤ a →
      (DecodingTask.adjustFirstAudioScores detect decodeText (t0 :: ts)
          (s0 :: ss)).getD a [] = (s0 :: ss).getD a []) ∧
    (MaximumLikelihoodRanker.rank none [[[10], [20]]] [[(0 : ℝ), -1]] ≠
      MaximumLikelihoodRanker.rank none [[[10], [20]]]
        (DecodingTask.adjustFirstAudioScores detectStub decodeStub
          [[[10], [20]]] [[(0 : ℝ), -1]])) := by
  refine ⟨rfl, fun i hi1 hi2 => ?_, fun a ha => ?_, ?_⟩
  · have hiz : i < (List.zipWith
        (fun te (s : ℝ) =>
          if (detect (decodeText te)).getD "unk" ≠ "en" then s - 7 else s)
        t0 s0).length := by
      simp only [List.length_zipWith]
      omega
    simp only [DecodingTask.adjustFirstAudioScores, List.getD_cons_zero]
    rw [List.getD_eq_getElem _ _ hiz, List.getElem_zipWith,
      List.getD_eq_getElem _ _ hi1, List.getD_eq_getElem _ _ hi2]
  · match a, ha with
    | a + 1, _ =>
        simp only [DecodingTask.adjustFirstAudioScores, List.getD_cons_succ]
  · have hadj : DecodingTask.adjustFirstAudioScores detectStub decodeStub
        [[[10], [20]]] [[(0 : ℝ), -1]] = [[(-7 : ℝ), -1]] := by
      simp only [DecodingTask.adjustFirstAudioScores, List.zipWith_cons_cons,
        List.zipWith_nil_right, detectStub, decodeStub]
      norm_num
      exact ⟨by decide, by decide⟩
    rw [hadj]
    have h1 : MaximumLikelihoodRanker.rank none [[[10], [20]]] [[(0 : ℝ), -1]] = [0] := by
      simp only [MaximumLikelihoodRanker.rank, MaximumLikelihoodRanker.scores,
        MaximumLikelihoodRanker.penaltyOf, List.map_cons, List.map_nil,
        List.zipWith_cons_cons, List.zipWith_nil_right, List.zipWith_nil_left]
      norm_num [npArgmax]
    have h2 : MaximumLikelihoodRanker.rank none [[[10], [20]]] [[(-7 : ℝ), -1]] = [1] := by
      simp only [MaximumLikelihoodRanker.rank, MaximumLikelihoodRanker.scores,
        MaximumLikelihoodRanker.penaltyOf, List.map_cons, List.map_nil,
        List.zipWith_cons_cons, List.zipWith_nil_right, List.zipWith_nil_left]
      norm_num [npArgmax]
    rw [h1, h2]
    simp

/-- Witness for C9: the first candidate of the first audio is detected as
non-English, so its score drops by 7. -/
theorem claim_C9_first_audio_rescoring_witness :
    ((DecodingTask.adjustFirstAudioScores detectStub decodeStub [[[10], [20]]]
        [[(0 : ℝ), -1]]).getD 0 []).getD 0 0 =
      (if (detectStub (decodeStub (([[10], [20]] : List (List ℕ)).getD 0 []))).getD "unk" ≠ "en"
        then ([(0 : ℝ), -1]).getD 0 0 - 7 else ([(0 : ℝ), -1]).getD 0 0) :=
  (claim_C9_first_audio_rescoring detectStub decodeStub [[10], [20]] [] [(0 : ℝ), -1] []).2.1
    0 (by decide) (by decide)

namespace GreedyDecoder

/-- Embeds `torch.argmax` over one row of logits: the first index attaining
the maximum (integer scores, so this one is computable). -/
def argmaxIdx : List ℤ → ℕ
  | [] => 0
  | x :: xs =>
    let k := argmaxIdx xs
    if xs.getD k x ≤ x then 0 else k + 1

/-- Embeds `GreedyDecoder.update`.  With temperature 0 the next token per row
is the argmax of that row's logits, otherwise a categorical sample (the
external random draw is the `sample` oracle).  `logprobs` is
`F.log_softmax(logits)` computed by the external numeric backend; the update
adds the selected token's log-probability times the 0/1 indicator
`tokens[:, -1] != eot`, clamps rows already at end-of-text back to
end-of-text, appends, and reports completion when every (new) row ends in
end-of-text. -/
def update (temperature : ℚ) (eot : ℕ) (sample : List ℤ → ℕ)
    (tokens : List (List ℕ)) (logits logprobs : List (List ℤ))
    (sumLogprobs : List ℤ) : List (List ℕ) × List ℤ × Bool :=
  let nextTokens0 := if temperature = 0 then logits.map argmaxIdx else logits.map sample
  let currentLogprobs := List.zipWith (fun row t => row.getD t 0) logprobs nextTokens0
  let newSums := List.zipWith
    (fun (p : ℤ × List ℕ) lp => p.1 + lp * (if p.2.getLast? = some eot then 0 else 1))
    (sumLogprobs.zip tokens) currentLogprobs
  let nextTokens := List.zipWith
    (fun (row : List ℕ) t => if row.getLast? = some eot then eot else t) tokens nextTokens0
  let newTokens := List.zipWith (fun row t => row ++ [t]) tokens nextTokens
  let completed := newTokens.all (fun row => decide (row.getLast? = some eot))
  (newTokens, newSums, completed)

/-- Embeds `GreedyDecoder.finalize`: pad every row with one trailing
end-of-text token (`F.pad(..., value=eot)` on the last dimension). -/
def finalize (eot : ℕ) (tokens : List (List ℕ)) (sumLogprobs : List ℤ) :
    List (List ℕ) × List ℤ :=
  (tokens.map (fun row => row ++ [eot]), sumLogprobs)

end GreedyDecoder

/-- C6: in greedy decoding, a row whose last token is already end-of-text is
frozen — update appends end-of-text again and leaves that row's cumulative
log-probability unchanged — and update reports completion exactly when every
updated row ends in end-of-text. -/
theorem claim_C6_greedy_frozen_rows (temperature : ℚ) (eot : ℕ) (sample : List ℤ → ℕ)
    (tokens : List (List ℕ)) (logits logprobs : List (List ℤ)) (sumLogprobs : List ℤ)
    (hlt : logits.length = tokens.length) (hlp : logprobs.length = tokens.length)
    (hs : sumLogprobs.length = tokens.length) :
    (GreedyDecoder.update temperature eot sample tokens logits logprobs sumLogprobs).1.length
      = tokens.length ∧
    (∀ i, i < tokens.length → (tokens.getD i []).getLast? = some eot →
      (GreedyDecoder.update temperature eot sample tokens logits logprobs
          sumLogprobs).1.getD i [] = tokens.getD i [] ++ [eot] ∧
      (GreedyDecoder.update temperature eot sample tokens logits logprobs
          sumLogprobs).2.1.getD i 0 = sumLogprobs.getD i 0) ∧
    ((GreedyDecoder.update temperature eot sample tokens logits logprobs
        sumLogprobs).2.2 = true ↔
      ∀ i, i < tokens.length →
        ((GreedyDecoder.update temperature eot sample tokens logits logprobs
            sumLogprobs).1.getD i []).getLast? = some eot) := by
  have hn0 : (if temperature = 0 then logits.map GreedyDecoder.argmaxIdx
      else logits.map sample).length = tokens.length := by
    split <;> simpa
  set nextTokens0 := if temperature = 0 then logits.map GreedyDecoder.argmaxIdx
    else logits.map sample with hnx
  have hcl : (List.zipWith (fun (row : List ℤ) t => row.getD t 0) logprobs
      nextTokens0).length = tokens.length := by
    simp only [List.length_zipWith]
    omega
  set currentLogprobs := List.zipWith (fun (row : List ℤ) t => row.getD t 0) logprobs
    nextTokens0 with hclx
  have hnewt : (List.zipWith (fun (row : List ℕ) t => row ++ [t]) tokens
      (List.zipWith (fun (row : List ℕ) t => if row.getLast? = some eot then eot else t)
        tokens nextTokens0)).length = tokens.length := by
    simp only [List.length_zipWith]
    omega
  have hupd : GreedyDecoder.update temperature eot sample tokens logits logprobs
      sumLogprobs =
      (List.zipWith (fun row t => row ++ [t]) tokens
        (List.zipWith (fun (row : List ℕ) t => if row.getLast? = some eot then eot else t)
          tokens nextTokens0),
       List.zipWith
        (fun (p : ℤ × List ℕ) lp => p.1 + lp * (if p.2.getLast? = some eot then 0 else 1))
        (sumLogprobs.zip tokens) currentLogprobs,
       (List.zipWith (fun row t => row ++ [t]) tokens
        (List.zipWith (fun (row : List ℕ) t => if row.getLast? = some eot then eot else t)
          tokens nextTokens0)).all (fun row => decide (row.getLast? = some eot))) := rfl
  refine ⟨by rw [hupd]; simpa using hnewt, fun i hi hfrozen => ?_, ?_⟩
  · have hrow : tokens.getD i [] = tokens[i] := List.getD_eq_getElem _ _ hi
    rw [hrow] at hfrozen
    constructor
    · rw [hupd]
      have hbound : i < (List.zipWith (fun row t => row ++ [t]) tokens
          (List.zipWith
            (fun (row : List ℕ) t => if row.getLast? = some eot then eot else t)
            tokens nextTokens0)).length := by omega
      rw [List.getD_eq_getElem _ _ hbound]
      simp only [List.getElem_zipWith, hrow, hfrozen, if_pos]
    · rw [hupd]
      have hbound : i < (List.zipWith
          (fun (p : ℤ × List ℕ) lp =>
            p.1 + lp * (if p.2.getLast? = some eot then 0 else 1))
          (sumLogprobs.zip tokens) currentLogprobs).length := by
        simp only [List.length_zipWith, List.length_zip]
        omega
      rw [List.getD_eq_getElem _ _ hbound]
      simp only [List.getElem_zipWith, List.getElem_zip, hfrozen, if_pos, mul_zero,
        add_zero]
      exact List.getD_eq_getElem _ _ (by omega) |>.symm
  · rw [hupd]
    simp only [List.all_eq_true, decide_eq_true_eq]
    constructor
    · intro h i hi
      have hbound : i < (List.zipWith (fun row t => row ++ [t]) tokens
          (List.zipWith
            (fun (row : List ℕ) t => if row.getLast? = some eot then eot else t)
            tokens nextTokens0)).length := by omega
      rw [List.getD_eq_getElem _ _ hbound]
      exact h _ (List.getElem_mem hbound)
    · intro h row hrow
      obtain ⟨i, hib, hieq⟩ := List.mem_iff_getElem.1 hrow
      have hit : i < tokens.length := by
        simp only [List.length_zipWith] at hib
        omega
      have := h i hit
      rw [List.getD_eq_getElem _ _ (by omega)] at this
      rw [← hieq]
      exact this

/-- Witness for C6 at a concrete input: row 0 already ends in the end-of-text
token 2, so it is frozen. -/
theorem claim_C6_greedy_frozen_rows_witness :
    (GreedyDecoder.update 0 2 (fun _ => 0) [[2], [0]] [[5, 1, 0], [0, 9, 0]]
        [[-1, -2, -3], [-4, -5, -6]] [4, 7]).1.getD 0 [] =
      ([[2], [0]] : List (List ℕ)).getD 0 [] ++ [2] ∧
    (GreedyDecoder.update 0 2 (fun _ => 0) [[2], [0]] [[5, 1, 0], [0, 9, 0]]
        [[-1, -2, -3], [-4, -5, -6]] [4, 7]).2.1.getD 0 0 = ([4, 7] : List ℤ).getD 0 0 :=
  (claim_C6_greedy_frozen_rows 0 2 (fun _ => 0) [[2], [0]] [[5, 1, 0], [0, 9, 0]]
    [[-1, -2, -3], [-4, -5, -6]] [4, 7] (by decide) (by decide) (by decide)).2.1
    0 (by decide) (by decide)

/-- Score type of the beam-search decoders: a float log-probability with `⊥`
for `-inf` (addition satisfies `⊥ + x = ⊥`, as IEEE `-inf` does). -/
abbrev Score := WithBot ℤ

/-- Coerces a list of integers to scores (concrete-instance convenience). -/
def zscores (l : List ℤ) : List Score := l.map (fun z => (z : Score))

/-- A per-audio finished-sequence set: a Python dict from completed token
sequence to its cumulative log-probability, as an insertion-ordered
association list. -/
abbrev FinishedDict := List (List ℕ × Score)

/-- Errors raised by the beam-search decoders: the update precondition
`ValueError` on a hypothesis batch not divisible by the beam size, the
`assert` comparing finished-list lengths, the constructor `assert` on
`max_candidates`, and the two errors reachable inside the kenlm loop of the
LM variant (`prefix.index(50258)` on a row without the start-of-transcript
id, and calling `BaseScore` on a `None` language model). -/
inductive DecodeError where
  | notDivisibleByBeamSize
  | finishedLengthMismatch
  | invalidMaxCandidates
  | sotMissingFromPrefix
  | lmNotLoaded
deriving DecidableEq

/-- Embeds `torch.topk` on one row: the `k` largest entries as
(value, index) pairs, values sorted descending.  Tie order between equal
values is backend-dependent in torch; embedded as lowest index first.  (The
source always calls it with `k = beam_size + 1 ≤` vocabulary size.) -/
def topk (row : List Score) (k : ℕ) : List (Score × ℕ) :=
  (sortBy (fun a b => decide (b.1 < a.1 ∨ (a.1 = b.1 ∧ a.2 ≤ b.2)))
    (row.enum.map (fun p => (p.2, p.1)))).take k

/-- The two dicts `scores` and `sources` of a beam-search update step share
their keys, so they are embedded as one association list from extended
sequence to (cumulative score, originating row index). -/
abbrev CandidateDict := List (List ℕ × Score × ℕ)

/-- STEP 1 of a beam-search update for audio group `i`: for every row `j` of
the group, every `beam_size + 1` top token extends the row's prefix, scored
by `sum_logprobs[idx] + logprob`; identical extended sequences collapse
(later rows overwrite score and source, as Python dict assignment does). -/
def expandGroup (beamSize i : ℕ) (tokens : List (List ℕ))
    (logprobs : List (List Score)) (sumLogprobs : List Score) : CandidateDict :=
  (List.range beamSize).foldl
    (fun cands j =>
      let idx := i * beamSize + j
      let pfx := tokens.getD idx []
      (topk (logprobs.getD idx []) (beamSize + 1)).foldl
        (fun cands lt =>
          dictInsert cands (pfx ++ [lt.2]) (sumLogprobs.getD idx ⊥ + lt.1, idx))
        cands)
    []

/-- Embeds `sorted(scores, key=scores.get, reverse=True)`: stable descending
sort of the candidate dict by score. -/
def rankCandidates (cands : CandidateDict) : CandidateDict :=
  sortBy (fun a b => decide (b.2.1 ≤ a.2.1)) cands

/-- Accumulators threaded through STEP 2 across all audio groups: the kept
rows, their source row indices, and the (in-place mutated) cumulative
log-probability tensor. -/
structure SelAcc where
  nextTokens : List (List ℕ)
  sourceIndices : List ℕ
  sumLogprobs : List Score
deriving DecidableEq

/-- STEP 2 of a beam-search update for one audio group: walk the candidates
in descending score order; a candidate ending in end-of-text goes to the
newly-finished dict, any other is kept — `sum_logprobs[len(next_tokens)]`
is overwritten with its score and its sequence and source row are appended —
until `beam_size` have been kept (`saved == beam_size` breaks, leaving later
candidates unprocessed, finished ones included). -/
def selectTop (beamSize eot : ℕ) :
    CandidateDict → ℕ → SelAcc → FinishedDict → SelAcc × FinishedDict
  | [], _, acc, fin => (acc, fin)
  | (seq, sc, src) :: rest, saved, acc, fin =>
    if seq.getLast? = some eot then
      selectTop beamSize eot rest saved acc (dictInsert fin seq sc)
    else
      let acc' : SelAcc :=
        ⟨acc.nextTokens ++ [seq], acc.sourceIndices ++ [src],
          listSet acc.sumLogprobs acc.nextTokens.length sc⟩
      if saved + 1 = beamSize then (acc', fin)
      else selectTop beamSize eot rest (saved + 1) acc' fin

/-- One audio group of a beam-search update step (STEP 1 then STEP 2),
appending the group's newly-finished dict. -/
def beamGroupStep (beamSize eot : ℕ) (tokens : List (List ℕ))
    (logprobs : List (List Score)) (st : SelAcc × List FinishedDict) (i : ℕ) :
    SelAcc × List FinishedDict :=
  let cands := rankCandidates (expandGroup beamSize i tokens logprobs st.1.sumLogprobs)
  let res := selectTop beamSize eot cands 0 st.1 []
  (res.1, st.2 ++ [res.2])

/-- The merge of one audio's newly finished sequences into its finished set:
walk the new entries in descending score order, stop as soon as the set holds
`max_candidates` entries. -/
def mergeFinishedGo (maxC : ℤ) : List (List ℕ × Score) → FinishedDict → FinishedDict
  | [], prev => prev
  | (s, v) :: rest, prev =>
    if maxC ≤ (prev.length : ℤ) then prev
    else mergeFinishedGo maxC rest (dictInsert prev s v)

/-- Embeds the `for seq in sorted(newly_finished, ...)` merge loop of
`update`. -/
def mergeFinished (maxC : ℤ) (prev newly : FinishedDict) : FinishedDict :=
  mergeFinishedGo maxC (sortBy (fun a b => decide (b.2 ≤ a.2)) newly) prev

/-- The values `BeamSearchDecoder.update` produces: the new hypothesis rows,
the source indices passed to `rearrange_kv_cache`, the mutated cumulative
log-probability tensor, the decoder's updated `finished_sequences` state, and
the completion flag. -/
structure BeamUpdateResult where
  tokens : List (List ℕ)
  sourceIndices : List ℕ
  sumLogprobs : List Score
  finishedSequences : List FinishedDict
  completed : Bool
deriving DecidableEq

/-- The body shared verbatim by `BeamSearchDecoder.update` and (after its
dead kenlm rescoring) `BeamSearchDecoderWithLM.update`: initialize
`finished_sequences` on the first call, run both steps per audio group,
check `len(self.finished_sequences) == len(finished_sequences)` (the
`assert`), merge newly finished sequences under the `max_candidates` cap,
and report completion when every audio holds at least `max_candidates`
finished sequences. -/
def beamUpdateCore (beamSize eot : ℕ) (maxC : ℤ) (tokens : List (List ℕ))
    (logprobs : List (List Score)) (sumLogprobs : List Score)
    (finishedSequences : Option (List FinishedDict)) :
    Except DecodeError BeamUpdateResult :=
  let nAudio := tokens.length / beamSize
  let finished0 := match finishedSequences with
    | none => List.replicate nAudio ([] : FinishedDict)
    | some fs => fs
  let step := (List.range nAudio).foldl (beamGroupStep beamSize eot tokens logprobs)
    (⟨[], [], sumLogprobs⟩, [])
  if finished0.length = step.2.length then
    let merged := List.zipWith (mergeFinished maxC) finished0 step.2
    let completed := merged.all (fun seqs => decide (maxC ≤ (seqs.length : ℤ)))
    .ok ⟨step.1.nextTokens, step.1.sourceIndices, step.1.sumLogprobs, merged, completed⟩
  else .error .finishedLengthMismatch

/-- The beam-search decoder's configuration state:
`max_candidates = round(beam_size * patience)`. -/
structure BeamSearchDecoder where
  beamSize : ℕ
  eot : ℕ
  patience : ℚ
  maxCandidates : ℤ
deriving DecidableEq

/-- Embeds `BeamSearchDecoder.__init__`: `patience or 1.0` (so an explicit
`0.0` also defaults), `max_candidates = round(beam_size * patience)`, and the
`assert max_candidates > 0`.  The constructor's word-list file read and
tokenizer fetch are external side effects with no influence on decoding. -/
def mkBeamSearchDecoder (beamSize eot : ℕ) (patience : Option ℚ) :
    Except DecodeError BeamSearchDecoder :=
  let pat : ℚ := match patience with
    | some p => if p = 0 then 1 else p
    | none => 1
  let maxC := pyRound ((beamSize : ℚ) * pat)
  if 0 < maxC then .ok ⟨beamSize, eot, pat, maxC⟩ else .error .invalidMaxCandidates

/-- Embeds `BeamSearchDecoder.update`: the divisibility precondition
(`ValueError`) followed by the shared update body.  `logprobs` is
`F.log_softmax(logits)` from the external numeric backend. -/
def BeamSearchDecoder.update (d : BeamSearchDecoder) (tokens : List (List ℕ))
    (logprobs : List (List Score)) (sumLogprobs : List Score)
    (finishedSequences : Option (List FinishedDict)) :
    Except DecodeError BeamUpdateResult :=
  if tokens.length % d.beamSize ≠ 0 then .error .notDivisibleByBeamSize
  else beamUpdateCore d.beamSize d.eot d.maxCandidates tokens logprobs sumLogprobs
    finishedSequences

/-- The padding loop of `BeamSearchDecoder.finalize` for one audio: insert
force-terminated rows (in the given order) until the finished set holds
`beam_size` entries. -/
def padFinishedGo (beamSize : ℕ) : List (List ℕ × Score) → FinishedDict → FinishedDict
  | [], seqs => seqs
  | (s, v) :: rest, seqs =>
    let seqs' := dictInsert seqs s v
    if beamSize ≤ seqs'.length then seqs' else padFinishedGo beamSize rest seqs'

/-- Embeds `list(np.argsort(x))[::-1]`: indices sorted by value ascending
(stably), then reversed. -/
def argsortDesc (l : List Score) : List ℕ :=
  ((sortBy (fun a b => decide (a.2 ≤ b.2)) l.enum).reverse).map (fun p => p.1)

/-- Embeds `BeamSearchDecoder.finalize`: any audio whose finished set holds
fewer than `beam_size` sequences is padded from its remaining rows in
descending score order, each row force-terminated with end-of-text.  Returns
the per-audio finished dicts; the Python function returns their key and value
lists. -/
def BeamSearchDecoder.finalize (d : BeamSearchDecoder)
    (precedingTokens : List (List (List ℕ))) (sumLogprobs : List (List Score))
    (finishedSequences : List FinishedDict) : List FinishedDict :=
  (finishedSequences.zip (precedingTokens.zip sumLogprobs)).map
    (fun fps =>
      let seqs := fps.1
      let pre := fps.2.1
      let slp := fps.2.2
      if seqs.length < d.beamSize then
        padFinishedGo d.beamSize
          ((argsortDesc slp).map (fun j => (pre.getD j [] ++ [d.eot], slp.getD j ⊥)))
          seqs
      else seqs)

/-- The LM-fused beam decoder's configuration state. -/
structure BeamSearchDecoderWithLM where
  beamSize : ℕ
  eot : ℕ
  patience : ℚ
  maxCandidates : ℤ
  lmLoaded : Bool
  lmAlpha : ℚ
  lmBeta : ℚ
  selectCandidates : Option ℕ
deriving DecidableEq

/-- Embeds `BeamSearchDecoderWithLM.__init__`: the same `patience or 1.0`,
`max_candidates` and `assert` as the plain decoder; `lmLoaded` records
whether a `lm_path` was given (`self.lm` is `None` otherwise). -/
def mkBeamSearchDecoderWithLM (beamSize eot : ℕ) (patience : Option ℚ)
    (lmLoaded : Bool) (lmAlpha lmBeta : ℚ) (selectCandidates : Option ℕ) :
    Except DecodeError BeamSearchDecoderWithLM :=
  let pat : ℚ := match patience with
    | some p => if p = 0 then 1 else p
    | none => 1
  let maxC := pyRound ((beamSize : ℚ) * pat)
  if 0 < maxC then
    .ok ⟨beamSize, eot, pat, maxC, lmLoaded, lmAlpha, lmBeta, selectCandidates⟩
  else .error .invalidMaxCandidates

/-- The error behavior of the kenlm loop in `BeamSearchDecoderWithLM.update`:
per row, `skip_len = prefix.index(50258)` raises `ValueError` when the
start-of-transcript id 50258 is absent, and when the row extends past the 4
skipped special tokens the scoring calls `self.lm.BeginSentenceWrite` /
`BaseScore`, raising on a `None` model.  Every value the loop computes is
discarded by the surviving (uncommented) code. -/
def lmRowChecks (lmLoaded : Bool) : List (List ℕ) → Except DecodeError Unit
  | [] => .ok ()
  | pfx :: rest =>
    if 50258 ∈ pfx then
      if 4 < pfx.length ∧ lmLoaded = false then .error .lmNotLoaded
      else lmRowChecks lmLoaded rest
    else .error .sotMissingFromPrefix

/-- Embeds `BeamSearchDecoderWithLM.update`: the same divisibility
precondition, the kenlm rescoring loop (whose results are dead — the
uncommented selection uses `logprobs_for_lm = log_softmax(logits)`, identical
to the plain decoder), then the shared update body. -/
def BeamSearchDecoderWithLM.update (d : BeamSearchDecoderWithLM)
    (tokens : List (List ℕ)) (logprobs : List (List Score))
    (sumLogprobs : List Score) (finishedSequences : Option (List FinishedDict)) :
    Except DecodeError BeamUpdateResult :=
  if tokens.length % d.beamSize ≠ 0 then .error .notDivisibleByBeamSize
  else
    match lmRowChecks d.lmLoaded tokens with
    | .error e => .error e
    | .ok _ => beamUpdateCore d.beamSize d.eot d.maxCandidates tokens logprobs
        sumLogprobs finishedSequences

theorem beamGroupStep_foldl_snd_length (beamSize eot : ℕ) (tokens : List (List ℕ))
    (logprobs : List (List Score)) :
    ∀ (l : List ℕ) (st : SelAcc × List FinishedDict),
      ((l.foldl (beamGroupStep beamSize eot tokens logprobs) st).2).length =
        st.2.length + l.length
  | [], st => by simp
  | i :: rest, st => by
      rw [List.foldl_cons,
        beamGroupStep_foldl_snd_length beamSize eot tokens logprobs rest _]
      simp only [beamGroupStep, List.length_append, List.length_cons, List.length_nil]
      omega

theorem beamUpdateCore_ne_divisibility_error (beamSize eot : ℕ) (maxC : ℤ)
    (tokens : List (List ℕ)) (logprobs : List (List Score)) (sumLogprobs : List Score)
    (finOpt : Option (List FinishedDict)) :
    beamUpdateCore beamSize eot maxC tokens logprobs sumLogprobs finOpt ≠
      .error .notDivisibleByBeamSize := by
  simp only [beamUpdateCore]
  split
  · simp
  · simp

theorem lmRowChecks_ne_divisibility_error (lmLoaded : Bool) :
    ∀ rows : List (List ℕ),
      lmRowChecks lmLoaded rows ≠ .error .notDivisibleByBeamSize
  | [] => by simp [lmRowChecks]
  | pfx :: rest => by
      simp only [lmRowChecks]
      split
      · split
        · simp
        · exact lmRowChecks_ne_divisibility_error lmLoaded rest
      · simp

/-- C7: both beam-search update variants raise the divisibility `ValueError`
first thing — before any token is selected — exactly when the hypothesis
batch row count is not an exact multiple of `beam_size`; on exact multiples
that error never occurs, and the plain decoder's update (called with the
per-run-reset `finished_sequences = None`) returns normally. -/
theorem claim_C7_beam_divisibility (d : BeamSearchDecoder)
    (dlm : BeamSearchDecoderWithLM) (tokens : List (List ℕ))
    (logprobs : List (List Score)) (sumLogprobs : List Score)
    (finOpt : Option (List FinishedDict)) :
    (tokens.length % d.beamSize ≠ 0 →
      d.update tokens logprobs sumLogprobs finOpt = .error .notDivisibleByBeamSize) ∧
    (tokens.length % d.beamSize = 0 →
      d.update tokens logprobs sumLogprobs finOpt ≠ .error .notDivisibleByBeamSize) ∧
    (tokens.length % d.beamSize = 0 →
      ∃ r, d.update tokens logprobs sumLogprobs none = .ok r) ∧
    (tokens.length % dlm.beamSize ≠ 0 →
      dlm.update tokens logprobs sumLogprobs finOpt = .error .notDivisibleByBeamSize) ∧
    (tokens.length % dlm.beamSize = 0 →
      dlm.update tokens logprobs sumLogprobs finOpt ≠ .error .notDivisibleByBeamSize) := by
  refine ⟨fun h => ?_, fun h => ?_, fun h => ?_, fun h => ?_, fun h => ?_⟩
  · simp only [BeamSearchDecoder.update, if_pos h]
  · have hcond : ¬ (tokens.length % d.beamSize ≠ 0) := by omega
    simp only [BeamSearchDecoder.update, if_neg hcond]
    exact beamUpdateCore_ne_divisibility_error _ _ _ _ _ _ _
  · have hcond : ¬ (tokens.length % d.beamSize ≠ 0) := by omega
    simp only [BeamSearchDecoder.update, if_neg hcond, beamUpdateCore]
    have hlen : (List.replicate (tokens.length / d.beamSize) ([] : FinishedDict)).length =
        (((List.range (tokens.length / d.beamSize)).foldl
          (beamGroupStep d.beamSize d.eot tokens logprobs)
          (⟨⟨[], [], sumLogprobs⟩, []⟩ : SelAcc × List FinishedDict)).2).length := by
      rw [beamGroupStep_foldl_snd_length]
      simp
    rw [if_pos hlen]
    exact ⟨_, rfl⟩
  · simp only [BeamSearchDecoderWithLM.update, if_pos h]
  · have hcond : ¬ (tokens.length % dlm.beamSize ≠ 0) := by omega
    simp only [BeamSearchDecoderWithLM.update, if_neg hcond]
    rcases hc : lmRowChecks dlm.lmLoaded tokens with e | u
    · intro hcontra
      have he : e = DecodeError.notDivisibleByBeamSize := by
        simpa using hcontra
      exact lmRowChecks_ne_divisibility_error dlm.lmLoaded tokens (he ▸ hc)
    · exact beamUpdateCore_ne_divisibility_error _ _ _ _ _ _ _

/-- Witness for C7: three rows are not a multiple of beam size 2, so the
update raises the divisibility error. -/
theorem claim_C7_beam_divisibility_witness :
    BeamSearchDecoder.update ⟨2, 3, 1, 2⟩ [[0], [0], [0]] [] [] none =
      .error .notDivisibleByBeamSize :=
  (claim_C7_beam_divisibility ⟨2, 3, 1, 2⟩ ⟨2, 3, 1, 2, false, 1, 1, none⟩
    [[0], [0], [0]] [] [] none).1 (by decide)

theorem length_mergeFinishedGo_le (maxC : ℤ) :
    ∀ (items : List (List ℕ × Score)) (prev : FinishedDict),
      (prev.length : ℤ) ≤ maxC → ((mergeFinishedGo maxC items prev).length : ℤ) ≤ maxC
  | [], _, h => h
  | (s, v) :: rest, prev, h => by
      simp only [mergeFinishedGo]
      split
      · exact h
      · rename_i hlt
        refine length_mergeFinishedGo_le maxC rest _ ?_
        have hins := length_dictInsert prev s v
        omega

theorem length_mergeFinished_le (maxC : ℤ) (prev newly : FinishedDict)
    (h : (prev.length : ℤ) ≤ maxC) :
    ((mergeFinished maxC prev newly).length : ℤ) ≤ maxC :=
  length_mergeFinishedGo_le maxC _ prev h

theorem length_padFinishedGo_le (beamSize : ℕ) :
    ∀ (items : List (List ℕ × Score)) (seqs : FinishedDict),
      seqs.length < beamSize → (padFinishedGo beamSize items seqs).length ≤ beamSize
  | [], _, h => le_of_lt h
  | (s, v) :: rest, seqs, h => by
      simp only [padFinishedGo]
      have hins := length_dictInsert seqs s v
      split
      · omega
      · rename_i hc
        exact length_padFinishedGo_le beamSize rest _ (by omega)

/-- C1 (amended): a decoder constructed by `BeamSearchDecoder.__init__` has
`max_candidates = round(beam_size * patience) > 0` (the `assert`); every
successful `update` keeps every audio's finished-sequence set at or below
`max_candidates` entries, starting from the reset state or any state within
the bound.  After `finalize`, however, the bound is
`max(max_candidates, beam_size)`: finalization pads a short finished set up
to `beam_size` entries, which exceeds `max_candidates` whenever
`patience < 1` makes `max_candidates < beam_size` (so the claimed
`max_candidates` bound holds after finalization only when
`beam_size ≤ max_candidates`, e.g. for `patience ≥ 1`). -/
theorem claim_C1_beam_finished_bounded (beamSize eot : ℕ) (patience : Option ℚ)
    (d : BeamSearchDecoder)
    (hmk : mkBeamSearchDecoder beamSize eot patience = .ok d) :
    0 < d.maxCandidates ∧
    (∀ tokens logprobs sumLogprobs finOpt r,
      (∀ fs, finOpt = some fs → ∀ f ∈ fs, (f.length : ℤ) ≤ d.maxCandidates) →
      d.update tokens logprobs sumLogprobs finOpt = .ok r →
      ∀ f ∈ r.finishedSequences, (f.length : ℤ) ≤ d.maxCandidates) ∧
    (∀ precedingTokens slp fin,
      (∀ f ∈ fin, (f.length : ℤ) ≤ d.maxCandidates) →
      ∀ f ∈ d.finalize precedingTokens slp fin,
        (f.length : ℤ) ≤ max d.maxCandidates (d.beamSize : ℤ)) := by
  have hpos : 0 < d.maxCandidates := by
    simp only [mkBeamSearchDecoder] at hmk
    split at hmk
    · rename_i hc
      cases hmk
      exact hc
    · cases hmk
  refine ⟨hpos, fun tokens logprobs sumLogprobs finOpt r hstate hupd => ?_,
    fun precedingTokens slp fin hstate => ?_⟩
  · simp only [BeamSearchDecoder.update] at hupd
    split at hupd
    · cases hupd
    · simp only [beamUpdateCore] at hupd
      split at hupd
      · rename_i hlen
        cases hupd
        intro f hf
        rcases mem_of_mem_zipWith hf with ⟨a, hain, b, hbin, rfl⟩
        refine length_mergeFinished_le _ _ _ ?_
        rcases finOpt with _ | fs
        · have ha : a = [] := List.eq_of_mem_replicate hain
          subst ha
          simpa using le_of_lt hpos
        · exact hstate fs rfl a hain
      · cases hupd
  · intro f hf
    simp only [BeamSearchDecoder.finalize] at hf
    rcases List.mem_map.1 hf with ⟨fps, hfpsin, rfl⟩
    obtain ⟨seqs, pre, slp1⟩ := fps
    have hseqs : seqs ∈ fin := (List.of_mem_zip hfpsin).1
    split
    · rename_i hlt
      have := length_padFinishedGo_le d.beamSize
        ((argsortDesc slp1).map (fun j => (pre.getD j [] ++ [d.eot], slp1.getD j ⊥)))
        seqs hlt
      have hle : ((padFinishedGo d.beamSize
          ((argsortDesc slp1).map (fun j => (pre.getD j [] ++ [d.eot], slp1.getD j ⊥)))
          seqs).length : ℤ) ≤ (d.beamSize : ℤ) := by
        exact_mod_cast this
      exact le_trans hle (le_max_right _ _)
    · exact le_trans (hstate seqs hseqs) (le_max_left _ _)

/-- Witness for C1: `beam_size = 2` with default patience gives
`max_candidates = round(2 * 1.0) = 2 > 0`. -/
theorem claim_C1_beam_finished_bounded_witness :
    mkBeamSearchDecoder 2 3 none = .ok ⟨2, 3, 1, 2⟩ ∧
      0 < (⟨2, 3, 1, 2⟩ : BeamSearchDecoder).maxCandidates := by
  have hmk : mkBeamSearchDecoder 2 3 none = .ok ⟨2, 3, 1, 2⟩ := by
    simp only [mkBeamSearchDecoder]
    have h2 : ((2 : ℕ) : ℚ) * 1 = (2 : ℚ) := by norm_num
    rw [h2]
    have hr : pyRound (2 : ℚ) = 2 := by decide
    rw [hr]
    norm_num
  exact ⟨hmk, (claim_C1_beam_finished_bounded 2 3 none ⟨2, 3, 1, 2⟩ hmk).1⟩

deriving instance DecidableEq for Except

/-- The rational 1/2, written on the raw representation so that it evaluates
by kernel reduction (used as a concrete `patience` value). -/
def ratHalf : ℚ := ⟨1, 2, by decide, Nat.coprime_one_left 2⟩

/-- Counterexample to C1 as stated: with `beam_size = 2` and
`patience = 0.5`, construction succeeds with
`max_candidates = round(2 * 0.5) = 1 > 0`, and a first update step (no beam
finishes; sizes stay at 0 ≤ 1) is followed by a finalization that pads the
empty finished set with the two remaining force-terminated rows — the
finished-sequence set then holds 2 entries, exceeding `max_candidates = 1`. -/
theorem claim_C1_counterexample :
    mkBeamSearchDecoder 2 3 (some ratHalf) = .ok ⟨2, 3, ratHalf, 1⟩ ∧
    BeamSearchDecoder.update ⟨2, 3, ratHalf, 1⟩ [[0], [0]]
        [zscores [0, -1, -2, -10], zscores [0, -1, -2, -10]] (zscores [0, 0]) none =
      .ok ⟨[[0, 0], [0, 1]], [1, 1], zscores [0, -1], [[]], false⟩ ∧
    ((BeamSearchDecoder.finalize ⟨2, 3, ratHalf, 1⟩ [[[0, 0], [0, 1]]]
        [zscores [0, -1]] [[]]).getD 0 []).length = 2 ∧
    ¬ ((((BeamSearchDecoder.finalize ⟨2, 3, ratHalf, 1⟩ [[[0, 0], [0, 1]]]
        [zscores [0, -1]] [[]]).getD 0 []).length : ℤ) ≤
      (⟨2, 3, ratHalf, 1⟩ : BeamSearchDecoder).maxCandidates) := by
  refine ⟨?_, by decide, by decide, by decide⟩
  simp only [mkBeamSearchDecoder]
  have hpat : (if ratHalf = (0 : ℚ) then (1 : ℚ) else ratHalf) = ratHalf := by decide
  rw [hpat]
  have hmul : ((2 : ℕ) : ℚ) * ratHalf = 1 := by
    have hh : ratHalf = 1 / 2 := by
      unfold ratHalf
      rw [Rat.mk'_eq_divInt, Rat.divInt_eq_div]
      norm_num
    rw [hh]
    norm_num
  rw [hmul]
  have hr : pyRound (1 : ℚ) = 1 := by decide
  rw [hr]
  norm_num

/-- Configuration of `ApplyTimestampRules`: the optional `<|notimestamps|>`
token id, the first timestamp token id, the end-of-text id, the first sampled
position, and the optional cap on the initial timestamp index. -/
structure TsParams where
  noTimestamps : Option ℕ
  timestampBegin : ℕ
  eot : ℕ
  sampleBegin : ℕ
  maxInitialTimestampIndex : Option ℕ

namespace ApplyTimestampRules

/-- In-place mask `logits[k, j] = -inf` on one row, the row as a
vocabulary-indexed function. -/
def maskAt (j : ℕ) (lg : ℕ → Score) (i : ℕ) : Score :=
  if i = j then ⊥ else lg i

/-- In-place mask `logits[k, lo:hi] = -inf`. -/
def maskRange (lo hi : ℕ) (lg : ℕ → Score) (i : ℕ) : Score :=
  if lo ≤ i ∧ i < hi then ⊥ else lg i

/-- In-place mask `logits[k, lo:] = -inf`. -/
def maskFrom (lo : ℕ) (lg : ℕ → Score) (i : ℕ) : Score :=
  if lo ≤ i then ⊥ else lg i

/-- `last_was_timestamp`: the sampled row is nonempty and its last token is a
timestamp token. -/
def lastWasTimestamp (tsb : ℕ) (s : List ℕ) : Bool :=
  match s.getLast? with
  | some x => decide (tsb ≤ x)
  | none => false

/-- `penultimate_was_timestamp`: fewer than two sampled tokens, or the
second-to-last is a timestamp token. -/
def penultimateWasTimestamp (tsb : ℕ) (s : List ℕ) : Bool :=
  decide (s.length < 2) ||
    (match s[s.length - 2]? with
     | some x => decide (tsb ≤ x)
     | none => true)

/-- Rule (a): suppress `<|notimestamps|>` when the tokenizer defines it. -/
def stage1 (p : TsParams) (lg : ℕ → Score) : ℕ → Score :=
  match p.noTimestamps with
  | some nt => maskAt nt lg
  | none => lg

/-- Rule (b), the pairing rule: after a trailing timestamp, mask all
timestamps when the one before was also a timestamp (or missing), else mask
all text tokens (`logits[k, :eot] = -inf`). -/
def stage2 (p : TsParams) (s : List ℕ) (lg : ℕ → Score) : ℕ → Score :=
  if lastWasTimestamp p.timestampBegin s then
    (if penultimateWasTimestamp p.timestampBegin s then maskFrom p.timestampBegin lg
     else maskRange 0 p.eot lg)
  else lg

/-- Rule (c), monotonicity: when the row has sampled timestamps, mask
timestamp ids below the last one (below the last one plus one unless a
segment is open). -/
def stage3 (p : TsParams) (s : List ℕ) (lg : ℕ → Score) : ℕ → Score :=
  match (s.filter (fun t => decide (p.timestampBegin ≤ t))).getLast? with
  | some lastTs =>
      maskRange p.timestampBegin
        (if lastWasTimestamp p.timestampBegin s &&
            !penultimateWasTimestamp p.timestampBegin s
         then lastTs else lastTs + 1) lg
  | none => lg

/-- Rule (d), the first sampled position: mask all non-timestamp tokens, and
timestamps beyond the configured initial cap. -/
def stage4 (p : TsParams) (ctxLen : ℕ) (lg : ℕ → Score) : ℕ → Score :=
  if ctxLen = p.sampleBegin then
    match p.maxInitialTimestampIndex with
    | some m => maskFrom (p.timestampBegin + m + 1) (maskRange 0 p.timestampBegin lg)
    | none => maskRange 0 p.timestampBegin lg
  else lg

/-- Rule (e): when the total probability mass on timestamp tokens beats the
best text token, mask all text tokens.  The comparison is a floating-point
`logsumexp` over the external backend; its boolean outcome enters the
embedding as `forceTimestamp`, and both outcomes' mask effects are embedded. -/
def stage5 (tsb : ℕ) (forceTimestamp : Bool) (lg : ℕ → Score) : ℕ → Score :=
  if forceTimestamp then maskRange 0 tsb lg else lg

/-- Embeds `ApplyTimestampRules.apply` for one row of the hypothesis batch:
the row's full context `ctxTokens` and its logits as a vocabulary-indexed
score function, rules (a)-(e) applied in source order. -/
def apply (p : TsParams) (ctxTokens : List ℕ) (forceTimestamp : Bool)
    (lg : ℕ → Score) : ℕ → Score :=
  stage5 p.timestampBegin forceTimestamp
    (stage4 p ctxTokens.length
      (stage3 p (ctxTokens.drop p.sampleBegin)
        (stage2 p (ctxTokens.drop p.sampleBegin)
          (stage1 p lg))))

theorem stage1_bot (p : TsParams) (lg : ℕ → Score) (i : ℕ) (h : lg i = ⊥) :
    stage1 p lg i = ⊥ := by
  unfold stage1
  rcases hnt : p.noTimestamps with _ | nt
  · simp only [hnt]
    exact h
  · simp only [hnt]
    unfold maskAt
    split <;> simp [h]

theorem stage2_bot (p : TsParams) (s : List ℕ) (lg : ℕ → Score) (i : ℕ)
    (h : lg i = ⊥) : stage2 p s lg i = ⊥ := by
  unfold stage2
  split
  · split
    · unfold maskFrom
      split <;> simp [h]
    · unfold maskRange
      split <;> simp [h]
  · exact h

theorem stage3_bot (p : TsParams) (s : List ℕ) (lg : ℕ → Score) (i : ℕ)
    (h : lg i = ⊥) : stage3 p s lg i = ⊥ := by
  unfold stage3
  rcases hl : ((s.filter (fun t => decide (p.timestampBegin ≤ t))).getLast?) with _ | lastTs
  · simp only [hl]
    exact h
  · simp only [hl]
    unfold maskRange
    split <;> simp [h]

theorem stage4_bot (p : TsParams) (ctxLen : ℕ) (lg : ℕ → Score) (i : ℕ)
    (h : lg i = ⊥) : stage4 p ctxLen lg i = ⊥ := by
  unfold stage4
  split
  · rcases hm : p.maxInitialTimestampIndex with _ | m
    · simp only [hm]
      unfold maskRange
      split <;> simp [h]
    · simp only [hm]
      unfold maskFrom maskRange
      split
      · rfl
      · split <;> simp [h]
  · exact h

theorem stage5_bot (tsb : ℕ) (f : Bool) (lg : ℕ → Score) (i : ℕ)
    (h : lg i = ⊥) : stage5 tsb f lg i = ⊥ := by
  unfold stage5
  split
  · unfold maskRange
    split <;> simp [h]
  · exact h

/-- After a trailing timestamp whose predecessor was also a timestamp (or
missing), every timestamp token is masked. -/
theorem apply_bot_of_pair (p : TsParams) (ctxTokens : List ℕ) (f : Bool)
    (lg : ℕ → Score) (t : ℕ)
    (h1 : lastWasTimestamp p.timestampBegin (ctxTokens.drop p.sampleBegin) = true)
    (h2 : penultimateWasTimestamp p.timestampBegin (ctxTokens.drop p.sampleBegin) = true)
    (ht : p.timestampBegin ≤ t) :
    apply p ctxTokens f lg t = ⊥ := by
  unfold apply
  refine stage5_bot _ _ _ _ (stage4_bot _ _ _ _ (stage3_bot _ _ _ _ ?_))
  unfold stage2
  rw [if_pos h1, if_pos h2]
  unfold maskFrom
  exact if_pos ht

/-- After a trailing timestamp whose predecessor was a non-timestamp, every
text token (id below end-of-text) is masked. -/
theorem apply_bot_of_single (p : TsParams) (ctxTokens : List ℕ) (f : Bool)
    (lg : ℕ → Score) (t : ℕ)
    (h1 : lastWasTimestamp p.timestampBegin (ctxTokens.drop p.sampleBegin) = true)
    (h2 : penultimateWasTimestamp p.timestampBegin (ctxTokens.drop p.sampleBegin) = false)
    (ht : t < p.eot) :
    apply p ctxTokens f lg t = ⊥ := by
  unfold apply
  refine stage5_bot _ _ _ _ (stage4_bot _ _ _ _ (stage3_bot _ _ _ _ ?_))
  unfold stage2
  rw [if_pos h1, if_neg (by simp [h2])]
  unfold maskRange
  exact if_pos ⟨Nat.zero_le t, ht⟩

/-- Timestamp monotonicity: with sampled timestamps present, timestamp ids
below the rule's cutoff are masked. -/
theorem apply_bot_of_mono (p : TsParams) (ctxTokens : List ℕ) (f : Bool)
    (lg : ℕ → Score) (t lastTs : ℕ)
    (hlast : ((ctxTokens.drop p.sampleBegin).filter
      (fun x => decide (p.timestampBegin ≤ x))).getLast? = some lastTs)
    (ht1 : p.timestampBegin ≤ t)
    (ht2 : t < (if lastWasTimestamp p.timestampBegin (ctxTokens.drop p.sampleBegin) &&
        !penultimateWasTimestamp p.timestampBegin (ctxTokens.drop p.sampleBegin)
      then lastTs else lastTs + 1)) :
    apply p ctxTokens f lg t = ⊥ := by
  unfold apply
  refine stage5_bot _ _ _ _ (stage4_bot _ _ _ _ ?_)
  unfold stage3
  rw [hlast]
  unfold maskRange
  exact if_pos ⟨ht1, ht2⟩

end ApplyTimestampRules

/-- The sampled token sequences producible under the timestamp filter: start
from the fixed context `init` and repeatedly append any token whose filtered
logit is not `-inf` (each step may use arbitrary raw logits and either
outcome of the timestamp-mass rule). -/
inductive TSTrace (p : TsParams) (init : List ℕ) : List ℕ → Prop where
  | nil : TSTrace p init []
  | step {s : List ℕ} {t : ℕ} (lg : ℕ → Score) (forceTimestamp : Bool) :
      TSTrace p init s →
      ApplyTimestampRules.apply p (init ++ s) forceTimestamp lg t ≠ ⊥ →
      TSTrace p init (s ++ [t])

/-- No token immediately following two consecutive timestamp tokens is itself
a timestamp token. -/
def tsPairsClosed (tsb : ℕ) (s : List ℕ) : Prop :=
  ∀ i, (h : i + 2 < s.length) →
    tsb ≤ s.get ⟨i, by omega⟩ → tsb ≤ s.get ⟨i + 1, by omega⟩ →
      s.get ⟨i + 2, h⟩ < tsb

theorem drop_sampleBegin_of_init {p : TsParams} {init s : List ℕ}
    (hinit : init.length = p.sampleBegin) :
    (init ++ s).drop p.sampleBegin = s := by
  rw [← hinit]
  exact List.drop_left init s

theorem tsStep_pair {p : TsParams} {init s : List ℕ} {t : ℕ}
    (hinit : init.length = p.sampleBegin)
    {lg : ℕ → Score} {f : Bool}
    (hne : ApplyTimestampRules.apply p (init ++ s) f lg t ≠ ⊥)
    (h1 : ApplyTimestampRules.lastWasTimestamp p.timestampBegin s = true)
    (h2 : ApplyTimestampRules.penultimateWasTimestamp p.timestampBegin s = true) :
    t < p.timestampBegin := by
  by_contra hc
  push_neg at hc
  refine hne (ApplyTimestampRules.apply_bot_of_pair p (init ++ s) f lg t ?_ ?_ hc)
  · rw [drop_sampleBegin_of_init hinit]
    exact h1
  · rw [drop_sampleBegin_of_init hinit]
    exact h2

theorem tsStep_mono {p : TsParams} {init s : List ℕ} {t lastTs : ℕ}
    (hinit : init.length = p.sampleBegin)
    {lg : ℕ → Score} {f : Bool}
    (hne : ApplyTimestampRules.apply p (init ++ s) f lg t ≠ ⊥)
    (hlast : (s.filter (fun x => decide (p.timestampBegin ≤ x))).getLast? = some lastTs)
    (ht : p.timestampBegin ≤ t) :
    lastTs ≤ t := by
  by_contra hc
  push_neg at hc
  refine hne (ApplyTimestampRules.apply_bot_of_mono p (init ++ s) f lg t lastTs ?_ ht ?_)
  · rw [drop_sampleBegin_of_init hinit]
    exact hlast
  · rw [drop_sampleBegin_of_init hinit]
    split <;> omega

theorem tsTrace_invariant (p : TsParams) (init : List ℕ)
    (hinit : init.length = p.sampleBegin) :
    ∀ s, TSTrace p init s →
      tsPairsClosed p.timestampBegin s ∧
      List.Chain' (· ≤ ·) (s.filter (fun t => decide (p.timestampBegin ≤ t))) := by
  intro s h
  induction h with
  | nil =>
      exact ⟨fun i hi => by simp at hi, by simp⟩
  | step lg f htr hne ih =>
      rename_i s0 t
      obtain ⟨ihP, ihC⟩ := ih
      constructor
      · intro i hi hts1 hts2
        have hlen : (s0 ++ [t]).length = s0.length + 1 := by simp
        by_cases hcase : i + 2 < s0.length
        · have e0 : (s0 ++ [t]).get ⟨i, by omega⟩ = s0.get ⟨i, by omega⟩ := by
            simp only [List.get_eq_getElem]
            exact List.getElem_append_left (by omega)
          have e1 : (s0 ++ [t]).get ⟨i + 1, by omega⟩ = s0.get ⟨i + 1, by omega⟩ := by
            simp only [List.get_eq_getElem]
            exact List.getElem_append_left (by omega)
          have e2 : (s0 ++ [t]).get ⟨i + 2, by omega⟩ = s0.get ⟨i + 2, by omega⟩ := by
            simp only [List.get_eq_getElem]
            exact List.getElem_append_left (by omega)
          rw [e0] at hts1
          rw [e1] at hts2
          rw [e2]
          exact ihP i hcase hts1 hts2
        · have hieq : i + 2 = s0.length := by omega
          have hl2 : 2 ≤ s0.length := by omega
          have e0 : (s0 ++ [t]).get ⟨i, by omega⟩ = s0.get ⟨i, by omega⟩ := by
            simp only [List.get_eq_getElem]
            exact List.getElem_append_left (by omega)
          have e1 : (s0 ++ [t]).get ⟨i + 1, by omega⟩ = s0.get ⟨i + 1, by omega⟩ := by
            simp only [List.get_eq_getElem]
            exact List.getElem_append_left (by omega)
          have e2 : (s0 ++ [t]).get ⟨i + 2, by omega⟩ = t := by
            simp only [List.get_eq_getElem]
            rw [List.getElem_append_right (by omega)]
            have hz : i + 2 - s0.length = 0 := by omega
            simp [hz]
          rw [e0] at hts1
          rw [e1] at hts2
          rw [e2]
          have hlastw : ApplyTimestampRules.lastWasTimestamp p.timestampBegin s0
              = true := by
            unfold ApplyTimestampRules.lastWasTimestamp
            rw [List.getLast?_eq_getElem?]
            have hidx : s0.length - 1 = i + 1 := by omega
            rw [hidx, List.getElem?_eq_getElem (by omega)]
            simpa using hts2
          have hpenw : ApplyTimestampRules.penultimateWasTimestamp p.timestampBegin s0
              = true := by
            unfold ApplyTimestampRules.penultimateWasTimestamp
            have hidx : s0.length - 2 = i := by omega
            rw [hidx, List.getElem?_eq_getElem (by omega)]
            simp only [Bool.or_eq_true, decide_eq_true_eq]
            right
            simpa using hts1
          exact tsStep_pair hinit hne hlastw hpenw
      · rw [List.filter_append]
        by_cases ht : p.timestampBegin ≤ t
        · have hft : [t].filter (fun x => decide (p.timestampBegin ≤ x)) = [t] := by
            simp [ht]
          rw [hft]
          rcases hlast : (s0.filter (fun x => decide (p.timestampBegin ≤ x))).getLast?
            with _ | lastTs
          · rw [List.getLast?_eq_none_iff.1 hlast]
            simp
          · refine List.Chain'.append ihC (by simp) ?_
            intro x hx y hy
            simp only [List.head?_cons, Option.mem_def, Option.some.injEq] at hy
            rw [hlast] at hx
            simp only [Option.mem_def, Option.some.injEq] at hx
            subst hx
            subst hy
            exact tsStep_mono hinit hne hlast ht
        · have hft : [t].filter (fun x => decide (p.timestampBegin ≤ x)) = [] := by
            simp [ht]
          rw [hft, List.append_nil]
          exact ihC

/-- C3 (amended): under the timestamp logit filter, in every producible row
(i) no token immediately following two consecutive timestamp tokens is a
timestamp (so timestamp pairs are closed by a non-timestamp token or the end
of the row — not necessarily by end-of-text, as the original claim stated),
and the sequence of timestamp tokens is non-decreasing; (ii) after a trailing
timestamp preceded by a non-timestamp, every text token (id below
end-of-text) is masked, so only non-text tokens are allowed next; (iii) after
a trailing timestamp whose predecessor is also a timestamp — or which is the
only sampled token — every timestamp token is masked, so only non-timestamp
tokens (text or end-of-text) are allowed next. -/
theorem claim_C3_timestamp_rules :
    (∀ (p : TsParams) (init s : List ℕ), init.length = p.sampleBegin →
      TSTrace p init s →
      tsPairsClosed p.timestampBegin s ∧
      List.Chain' (· ≤ ·) (s.filter (fun t => decide (p.timestampBegin ≤ t)))) ∧
    (∀ (p : TsParams) (ctxTokens : List ℕ) (f : Bool) (lg : ℕ → Score) (t : ℕ),
      ApplyTimestampRules.lastWasTimestamp p.timestampBegin
        (ctxTokens.drop p.sampleBegin) = true →
      ApplyTimestampRules.penultimateWasTimestamp p.timestampBegin
        (ctxTokens.drop p.sampleBegin) = false →
      t < p.eot → ApplyTimestampRules.apply p ctxTokens f lg t = ⊥) ∧
    (∀ (p : TsParams) (ctxTokens : List ℕ) (f : Bool) (lg : ℕ → Score) (t : ℕ),
      ApplyTimestampRules.lastWasTimestamp p.timestampBegin
        (ctxTokens.drop p.sampleBegin) = true →
      ApplyTimestampRules.penultimateWasTimestamp p.timestampBegin
        (ctxTokens.drop p.sampleBegin) = true →
      p.timestampBegin ≤ t → ApplyTimestampRules.apply p ctxTokens f lg t = ⊥) :=
  ⟨fun p init s hinit htr => tsTrace_invariant p init hinit s htr,
   fun p c f lg t h1 h2 ht => ApplyTimestampRules.apply_bot_of_single p c f lg t h1 h2 ht,
   fun p c f lg t h1 h2 ht => ApplyTimestampRules.apply_bot_of_pair p c f lg t h1 h2 ht⟩

/-- Concrete timestamp-filter configuration for the counterexample: no
`<|notimestamps|>` id, timestamps start at id 10, end-of-text is 5, sampling
starts at position 0, no initial-timestamp cap. -/
def cexTsParams : TsParams := ⟨none, 10, 5, 0, none⟩

/-- The row `[10, 0, 11, 11, 0]` — segment-open timestamp, text, a closing
and an opening timestamp, text — is producible under the timestamp filter
(each step exhibits concrete logits the filter leaves unmasked). -/
theorem tsTrace_cex : TSTrace cexTsParams [] [10, 0, 11, 11, 0] := by
  have h1 : TSTrace cexTsParams [] [10] :=
    .step (fun _ => ((0 : ℤ) : Score)) false .nil (by decide)
  have h2 : TSTrace cexTsParams [] [10, 0] :=
    .step (fun _ => ((0 : ℤ) : Score)) false h1 (by decide)
  have h3 : TSTrace cexTsParams [] [10, 0, 11] :=
    .step (fun _ => ((0 : ℤ) : Score)) false h2 (by decide)
  have h4 : TSTrace cexTsParams [] [10, 0, 11, 11] :=
    .step (fun _ => ((0 : ℤ) : Score)) false h3 (by decide)
  exact .step (fun _ => ((0 : ℤ) : Score)) false h4 (by decide)

/-- Counterexample to C3 as stated: the producible row `[10, 0, 11, 11, 0]`
has two consecutive timestamp tokens (positions 2 and 3) whose successor is
the text token 0, not end-of-text — the filter deliberately allows a closed
timestamp pair to be followed by text. -/
theorem claim_C3_counterexample :
    TSTrace cexTsParams [] [10, 0, 11, 11, 0] ∧
    cexTsParams.timestampBegin ≤ [10, 0, 11, 11, 0].getD 2 0 ∧
    cexTsParams.timestampBegin ≤ [10, 0, 11, 11, 0].getD 3 0 ∧
    [10, 0, 11, 11, 0].getD 4 0 ≠ cexTsParams.eot :=
  ⟨tsTrace_cex, by decide, by decide, by decide⟩

/-- Witness for C3 on the concrete producible row `[10, 0, 11, 11, 0]`. -/
theorem claim_C3_timestamp_rules_witness :
    tsPairsClosed cexTsParams.timestampBegin [10, 0, 11, 11, 0] ∧
    List.Chain' (· ≤ ·) ([10, 0, 11, 11, 0].filter
      (fun t => decide (cexTsParams.timestampBegin ≤ t))) :=
  claim_C3_timestamp_rules.1 cexTsParams [] [10, 0, 11, 11, 0] rfl tsTrace_cex

/-- The inference boundary's mutable resources: whether the kv-cache/hooks
are installed, and how many times `cleanup_caching` has run. -/
structure InferenceState where
  kvInstalled : Bool
  cleanupCalls : ℕ

/-- Embeds `PyTorchInference.cleanup_caching`: removes the hooks and resets
the cache (counted here, to state the exactly-once property). -/
def PyTorchInference.cleanup_caching (s : InferenceState) : InferenceState :=
  ⟨false, s.cleanupCalls + 1⟩

/-- Embeds Python `try ... finally fin` for a finalizer that cannot itself
throw: the body's outcome — normal value or propagated exception — is kept,
and the finalizer runs on the resulting state on every path. -/
def pyTryFinally {ε α : Type} (body : InferenceState → Except ε α × InferenceState)
    (fin : InferenceState → InferenceState) (s : InferenceState) :
    Except ε α × InferenceState :=
  let r := body s
  (r.1, fin r.2)

namespace DecodingTask

/-- The iterations of `_main_loop`'s `for i in range(sample_len)` body.  The
oracle `stepFn` covers one iteration's calls into the inference boundary,
the logit filters and `decoder.update` — it may throw (the decoder or the
external model raising mid-loop) and may touch the kv-cache flag, but by its
type it cannot run cleanup.  The loop breaks on decoder-reported completion
or when the context window `n_ctx` is exceeded. -/
def mainLoopGo {ε : Type} (nCtx : ℕ)
    (stepFn : ℕ → List (List ℕ) → Bool → Except ε (List (List ℕ) × Bool) × Bool) :
    ℕ → ℕ → List (List ℕ) → Bool → Except ε (List (List ℕ)) × Bool
  | _, 0, tokens, kv => (.ok tokens, kv)
  | i, fuel + 1, tokens, kv =>
    match stepFn i tokens kv with
    | (.error e, kv2) => (.error e, kv2)
    | (.ok (tokens2, completed), kv2) =>
      if completed || decide (nCtx < (tokens2.getD 0 []).length) then (.ok tokens2, kv2)
      else mainLoopGo nCtx stepFn (i + 1) fuel tokens2 kv2

/-- Embeds `DecodingTask._main_loop`: the iteration wrapped in
`try ... finally self.inference.cleanup_caching()`. -/
def mainLoop {ε : Type} (sampleLen nCtx : ℕ)
    (stepFn : ℕ → List (List ℕ) → Bool → Except ε (List (List ℕ) × Bool) × Bool)
    (tokens : List (List ℕ)) (s : InferenceState) :
    Except ε (List (List ℕ)) × InferenceState :=
  pyTryFinally
    (fun st =>
      let r := mainLoopGo nCtx stepFn 0 sampleLen tokens st.kvInstalled
      (r.1, ⟨r.2, st.cleanupCalls⟩))
    PyTorchInference.cleanup_caching s

/-- The control flow of `DecodingTask.run` around the sample loop: `pre`
stands for the stages before it (`decoder.reset`, `_get_audio_features`,
`_detect_language` — these may raise, and no cache exists yet since it is
installed lazily inside the loop), the `lang_id` task returns before the
loop, and `post` stands for the stages after it (`finalize`, the rescoring
block, ranking, result assembly — these may raise after cleanup already
ran; `run` itself catches nothing). -/
def runSkeleton {ε : Type} (taskLangId : Bool) (pre post : Except ε Unit)
    (sampleLen nCtx : ℕ)
    (stepFn : ℕ → List (List ℕ) → Bool → Except ε (List (List ℕ) × Bool) × Bool)
    (tokens : List (List ℕ)) (s0 : InferenceState) : Except ε Unit × InferenceState :=
  match pre with
  | .error e => (.error e, s0)
  | .ok _ =>
    if taskLangId then (.ok (), s0)
    else
      let r := mainLoop sampleLen nCtx stepFn tokens s0
      match r.1 with
      | .error e => (.error e, r.2)
      | .ok _ => (post, r.2)

end DecodingTask

theorem mainLoop_cleanupCalls {ε : Type} (sampleLen nCtx : ℕ)
    (stepFn : ℕ → List (List ℕ) → Bool → Except ε (List (List ℕ) × Bool) × Bool)
    (tokens : List (List ℕ)) (s0 : InferenceState) :
    (DecodingTask.mainLoop sampleLen nCtx stepFn tokens s0).2.cleanupCalls =
      s0.cleanupCalls + 1 := rfl

/-- C5: the sample loop runs the inference boundary's cleanup exactly once on
every exit path — normal completion, context overflow, or an exception from
the decoder/external model mid-loop (any `stepFn` outcome) — and a `run`
that reaches the sample loop (pre-loop stages succeeded and the task is not
`lang_id`) performs exactly one cleanup overall, whether the loop and the
post-loop stages succeed or throw. -/
theorem claim_C5_cleanup_exactly_once {ε : Type} (taskLangId : Bool)
    (pre post : Except ε Unit) (sampleLen nCtx : ℕ)
    (stepFn : ℕ → List (List ℕ) → Bool → Except ε (List (List ℕ) × Bool) × Bool)
    (tokens : List (List ℕ)) (s0 : InferenceState) :
    ((DecodingTask.mainLoop sampleLen nCtx stepFn tokens s0).2.cleanupCalls =
      s0.cleanupCalls + 1) ∧
    (pre = .ok () → taskLangId = false →
      (DecodingTask.runSkeleton taskLangId pre post sampleLen nCtx stepFn tokens
        s0).2.cleanupCalls = s0.cleanupCalls + 1) := by
  refine ⟨mainLoop_cleanupCalls sampleLen nCtx stepFn tokens s0, fun hpre hlang => ?_⟩
  subst hpre
  subst hlang
  simp only [DecodingTask.runSkeleton, Bool.false_eq_true, if_false]
  rcases hr : (DecodingTask.mainLoop sampleLen nCtx stepFn tokens s0).1 with e | u
  · exact mainLoop_cleanupCalls sampleLen nCtx stepFn tokens s0
  · exact mainLoop_cleanupCalls sampleLen nCtx stepFn tokens s0

/-- Witness for C5 on the exception path: a step oracle that always throws
still leaves exactly one cleanup behind. -/
theorem claim_C5_cleanup_exactly_once_witness :
    (DecodingTask.runSkeleton false (.ok ()) (.ok ()) 3 10
      (fun _ _tk kv => ((.error DecodeError.lmNotLoaded :
        Except DecodeError (List (List ℕ) × Bool)), kv))
      [[0]] ⟨false, 0⟩).2.cleanupCalls = 0 + 1 :=
  (claim_C5_cleanup_exactly_once false (.ok ()) (.ok ()) 3 10
    (fun _ _tk kv => ((.error DecodeError.lmNotLoaded :
      Except DecodeError (List (List ℕ) × Bool)), kv))
    [[0]] ⟨false, 0⟩).2 rfl rfl

/-- The tokenizer's special-token ids consumed by `_get_suppress_tokens`:
task tokens, start markers, the optional no-speech id, and the non-speech
token set. -/
structure TokenizerIds where
  transcribe : ℤ
  translate : ℤ
  sot : ℤ
  sotPrev : ℤ
  sotLm : ℤ
  noSpeech : Option ℤ
  nonSpeech : List ℤ

/-- Embeds `[int(t) for t in suppress_tokens.split(",")]` for a
comma-separated string of token ids; `none` where Python `int()` would
raise. -/
def parseSuppressTokens (s : String) : Option (List ℤ) :=
  (s.splitOn ",").mapM (fun t => t.toInt?)

namespace DecodingTask

/-- Embeds `DecodingTask._get_suppress_tokens` on a token-id list (a string
input goes through `parseSuppressTokens` first): the `-1` sentinel drops all
negative entries and adds the tokenizer's non-speech tokens; the structural
tokens and (when defined) the no-speech token are appended, and the result
is `tuple(sorted(set(...)))`.  The `None`/empty `elif` branch maps an empty
list to itself (and `None` never reaches this method: the constructor guards
on truthiness, and `-1 in None` would raise before it). -/
def getSuppressTokens (tk : TokenizerIds) (suppressTokens : List ℤ) : List ℤ :=
  let st := if (-1 : ℤ) ∈ suppressTokens then
      (suppressTokens.filter (fun t => decide (0 ≤ t))) ++ tk.nonSpeech
    else suppressTokens
  let st := st ++ [tk.transcribe, tk.translate, tk.sot, tk.sotPrev, tk.sotLm]
  let st := match tk.noSpeech with
    | some ns => st ++ [ns]
    | none => st
  st.toFinset.sort (· ≤ ·)

/-- `_get_suppress_tokens` on a comma-separated string value. -/
def getSuppressTokensStr (tk : TokenizerIds) (s : String) : Option (List ℤ) :=
  (parseSuppressTokens s).map (getSuppressTokens tk)

end DecodingTask

/-- C10: whatever the user supplies (comma-separated string, list, or the
`-1` sentinel), the resolved suppression set is sorted and duplicate-free,
always contains the transcribe, translate, start-of-transcript, `sot_prev`
and `sot_lm` ids plus the no-speech id when the tokenizer defines one; when
`-1` is present the tokenizer's non-speech tokens are all included and every
negative user entry is removed (the result is entirely non-negative whenever
the tokenizer's own ids are); string inputs resolve through the
comma-separated parse to the same set. -/
theorem claim_C10_suppress_tokens (tk : TokenizerIds) (input : List ℤ) :
    (List.Sorted (· ≤ ·) (DecodingTask.getSuppressTokens tk input) ∧
      (DecodingTask.getSuppressTokens tk input).Nodup) ∧
    (tk.transcribe ∈ DecodingTask.getSuppressTokens tk input ∧
      tk.translate ∈ DecodingTask.getSuppressTokens tk input ∧
      tk.sot ∈ DecodingTask.getSuppressTokens tk input ∧
      tk.sotPrev ∈ DecodingTask.getSuppressTokens tk input ∧
      tk.sotLm ∈ DecodingTask.getSuppressTokens tk input ∧
      ∀ ns, tk.noSpeech = some ns → ns ∈ DecodingTask.getSuppressTokens tk input) ∧
    ((-1 : ℤ) ∈ input →
      (∀ x ∈ tk.nonSpeech, x ∈ DecodingTask.getSuppressTokens tk input) ∧
      (0 ≤ tk.transcribe → 0 ≤ tk.translate → 0 ≤ tk.sot → 0 ≤ tk.sotPrev →
        0 ≤ tk.sotLm → (∀ ns, tk.noSpeech = some ns → 0 ≤ ns) →
        (∀ x ∈ tk.nonSpeech, 0 ≤ x) →
        ∀ t ∈ DecodingTask.getSuppressTokens tk input, 0 ≤ t)) ∧
    (∀ s l, parseSuppressTokens s = some l →
      DecodingTask.getSuppressTokensStr tk s =
        some (DecodingTask.getSuppressTokens tk l)) := by
  have hmem : ∀ x : ℤ, x ∈ DecodingTask.getSuppressTokens tk input ↔
      (x ∈ (if (-1 : ℤ) ∈ input then
          (input.filter (fun t => decide (0 ≤ t))) ++ tk.nonSpeech
        else input) ∨
        x ∈ [tk.transcribe, tk.translate, tk.sot, tk.sotPrev, tk.sotLm] ∨
        (∃ ns, tk.noSpeech = some ns ∧ x = ns)) := by
    intro x
    unfold DecodingTask.getSuppressTokens
    rcases hns : tk.noSpeech with _ | ns
    · simp only [hns, Finset.mem_sort, List.mem_toFinset, List.mem_append]
      constructor
      · rintro (h | h)
        · exact Or.inl h
        · exact Or.inr (Or.inl h)
      · rintro (h | h | ⟨ns, hcontra, _⟩)
        · exact Or.inl h
        · exact Or.inr h
        · cases hcontra
    · simp only [hns, Finset.mem_sort, List.mem_toFinset, List.mem_append,
        List.mem_singleton]
      constructor
      · rintro ((h | h) | h)
        · exact Or.inl h
        · exact Or.inr (Or.inl h)
        · exact Or.inr (Or.inr ⟨ns, rfl, h⟩)
      · rintro (h | h | ⟨ns2, hns2, rfl⟩)
        · exact Or.inl (Or.inl h)
        · exact Or.inl (Or.inr h)
        · injection hns2 with hns2
          exact Or.inr (by rw [hns2])
  refine ⟨⟨Finset.sort_sorted _ _, Finset.sort_nodup _ _⟩,
    ⟨?_, ?_, ?_, ?_, ?_, fun ns hns => ?_⟩, fun hsent => ⟨fun x hx => ?_, ?_⟩,
    fun s l h => ?_⟩
  · exact (hmem _).2 (Or.inr (Or.inl (by simp)))
  · exact (hmem _).2 (Or.inr (Or.inl (by simp)))
  · exact (hmem _).2 (Or.inr (Or.inl (by simp)))
  · exact (hmem _).2 (Or.inr (Or.inl (by simp)))
  · exact (hmem _).2 (Or.inr (Or.inl (by simp)))
  · exact (hmem _).2 (Or.inr (Or.inr ⟨ns, hns, rfl⟩))
  · refine (hmem _).2 (Or.inl ?_)
    rw [if_pos hsent]
    exact List.mem_append_right _ hx
  · intro h1 h2 h3 h4 h5 h6 h7 t ht
    rcases (hmem t).1 ht with h | h | hex
    · rw [if_pos hsent] at h
      rcases List.mem_append.1 h with h | h
      · have := List.of_mem_filter h
        simpa using this
      · exact h7 t h
    · simp only [List.mem_cons, List.mem_singleton] at h
      rcases h with rfl | rfl | rfl | rfl | rfl | h
      · exact h1
      · exact h2
      · exact h3
      · exact h4
      · exact h5
      · simp at h
    · obtain ⟨ns2, hns2, heq⟩ := hex
      rw [heq]
      exact h6 ns2 hns2
  · simp only [DecodingTask.getSuppressTokensStr, h, Option.map_some']

/-- Concrete tokenizer ids for the C10 witness (Whisper's multilingual
values, with a two-element non-speech set). -/
def tkIdsC : TokenizerIds := ⟨50359, 50358, 50258, 50361, 50360, some 50362, [1, 2]⟩

/-- Witness for C10: with the `-1` sentinel supplied, the tokenizer's
non-speech token 1 is in the resolved set. -/
theorem claim_C10_suppress_tokens_witness :
    (1 : ℤ) ∈ DecodingTask.getSuppressTokens tkIdsC [-1, 7] :=
  ((claim_C10_suppress_tokens tkIdsC [-1, 7]).2.2.1 (by decide)).1 1 (by decide)
